import Mathlib

/-!
Verification of the spec subsystem of the Spack package manager
(`lib/spack/spack/spec.py`).  The Python source is shallowly embedded:
pure observations become Lean functions, mutation becomes explicit state
passing, exceptions become `Except`, and generator-based traversals become
list-producing functions.  The modules `spack.version`, `spack.util.lang`,
`spack.parse` and `spack.packages` are not part of the sources; the few
operations taken from them are modelled from the specification document and
are marked `Modelled from the spec:` in their doc comments.
-/

namespace Spack

/-! ## Versions

Modelled from the spec: `spack.version` is not among the sources.  The spec
describes a `Version` as "a sequence of dotted components (numeric or
alphabetic), compared component-wise", `VersionRange` as an "inclusive
interval [lo, hi] with open ends permitted", and `VersionList` as "an
ordered, non-overlapping union of Versions and VersionRanges" where the
"empty list denotes `:` (any)". -/

/-- One dotted component of a version: numeric or alphabetic. -/
inductive VComp where
  | num (n : Nat)
  | alpha (s : String)
deriving DecidableEq, Repr

/-- A version is a nonempty sequence of dotted components; we model it as a
plain list. -/
abbrev Version := List VComp

/-- Modelled from the spec: component order; numeric components are compared
numerically, alphabetic ones lexicographically, and "numeric < alphabetic". -/
def VComp.le : VComp → VComp → Bool
  | .num a, .num b => a ≤ b
  | .num _, .alpha _ => true
  | .alpha _, .num _ => false
  | .alpha a, .alpha b => a ≤ b

/-- Modelled from the spec: versions are "compared component-wise"
(lexicographically, a strict prefix preceding its extensions). -/
def Version.le : Version → Version → Bool
  | [], _ => true
  | _ :: _, [] => false
  | a :: as, b :: bs =>
    if a = b then Version.le as bs
    else VComp.le a b

/-- An element of a `VersionList`: either a single version or an inclusive
range with optional endpoints (`none` is an open end). -/
inductive VElem where
  | ver (v : Version)
  | range (lo hi : Option Version)
deriving DecidableEq, Repr

/-- Lower bound of an element (none = −∞). -/
def VElem.lo : VElem → Option Version
  | .ver v => some v
  | .range l _ => l

/-- Upper bound of an element (none = +∞). -/
def VElem.hi : VElem → Option Version
  | .ver v => some v
  | .range _ h => h

/-- `lo ≤ v` where `none` means −∞. -/
def loLe (lo : Option Version) (v : Version) : Bool :=
  match lo with
  | none => true
  | some l => Version.le l v

/-- `v ≤ hi` where `none` means +∞. -/
def leHi (v : Version) (hi : Option Version) : Bool :=
  match hi with
  | none => true
  | some h => Version.le v h

/-- Modelled from the spec: two interval elements overlap iff their
intersection is nonempty, i.e. each one's lower bound is below the other's
upper bound. -/
def VElem.overlap (a b : VElem) : Bool :=
  (match a.lo, b.hi with
   | none, _ => true
   | _, none => true
   | some l, some h => Version.le l h) &&
  (match b.lo, a.hi with
   | none, _ => true
   | _, none => true
   | some l, some h => Version.le l h)

/-- Modelled from the spec: element `a` is covered by element `b` iff `a`'s
interval is contained in `b`'s (a Version satisfies a Version iff equal, a
Version satisfies a VersionRange iff in the interval, a range is covered iff
it is a subinterval). -/
def VElem.coveredBy (a b : VElem) : Bool :=
  match a, b with
  | .ver v, .ver w => v = w
  | .ver v, .range lo hi => loLe lo v && leHi v hi
  | .range _ _, .ver _ => false
  | .range lo hi, .range lo' hi' =>
    (match lo', lo with
     | none, _ => true
     | some _, none => false
     | some l', some l => Version.le l' l) &&
    (match hi, hi' with
     | _, none => true
     | none, some _ => false
     | some h, some h' => Version.le h h')

/-- An ordered union of versions and version ranges. -/
abbrev VersionList := List VElem

/-- The `:` (any-version) range. -/
def anyElem : VElem := .range none none

/-- `VersionList([':'])`, kept as a constant in the source (`_any_version`). -/
def anyVersionList : VersionList := [anyElem]

/-- Modelled from the spec: `overlaps(other)` holds iff the two lists have a
nonempty intersection.  The empty list denotes `:` (any version), so an
empty operand always overlaps. -/
def vlOverlaps (a b : VersionList) : Bool :=
  a.isEmpty || b.isEmpty || a.any fun ea => b.any fun eb => ea.overlap eb

/-- Modelled from the spec: "a VersionList satisfies another iff every
element of self is covered by some element of other and the lists overlap
nonempty". -/
def vlSatisfies (a b : VersionList) : Bool :=
  (a.all fun ea => b.any fun eb => ea.coveredBy eb) && vlOverlaps a b

/-- Modelled from the spec: element-wise intersection of two elements, when
nonempty: the larger lower bound and the smaller upper bound. -/
def VElem.inter (a b : VElem) : Option VElem :=
  if a.overlap b then
    let lo := match a.lo, b.lo with
      | none, x => x
      | x, none => x
      | some l, some l' => some (if Version.le l l' then l' else l)
    let hi := match a.hi, b.hi with
      | none, x => x
      | x, none => x
      | some h, some h' => some (if Version.le h h' then h else h')
    match lo, hi with
    | some l, some h => if l = h then some (.ver l) else some (.range lo hi)
    | _, _ => some (.range lo hi)
  else none

/-- Modelled from the spec: `intersect` replaces the receiver by the
element-wise intersection (empty operands denote `:`, leaving the other
operand unchanged). -/
def vlIntersect (a b : VersionList) : VersionList :=
  if a.isEmpty then b
  else if b.isEmpty then a
  else (a.flatMap fun ea => b.filterMap fun eb => ea.inter eb)

/-- Modelled from the spec: `add(v)` inserts an element keeping the list
ordered by lower bound and coalesces overlapping elements into their hull. -/
def vlAdd (v : VElem) : VersionList → VersionList
  | [] => [v]
  | e :: es =>
    if v.overlap e then
      -- coalesce: hull of the two elements, then keep absorbing
      let lo := match v.lo, e.lo with
        | none, _ => none
        | _, none => none
        | some l, some l' => some (if Version.le l l' then l else l')
      let hi := match v.hi, e.hi with
        | none, _ => none
        | _, none => none
        | some h, some h' => some (if Version.le h h' then h' else h)
      vlAdd (.range lo hi) es
    else if loLe v.lo (match e.lo with | none => [] | some l => l) &&
            (e.lo).isSome then
      v :: e :: es
    else
      e :: vlAdd v es

/-- A version list is concrete iff it is a single point version. -/
def vlConcrete : VersionList → Bool
  | [.ver _] => true
  | _ => false

/-- Well-formed element: a range has its endpoints in order. -/
def VElem.wf : VElem → Bool
  | .ver _ => true
  | .range lo hi =>
    match lo, hi with
    | some l, some h => Version.le l h
    | _, _ => true

/-- Every element of the list is well-formed. -/
def vlWf (l : VersionList) : Bool := l.all VElem.wf

/-! ## Compiler, Variant and the Spec DAG node -/

/-- `Compiler`: "the compiler or range of compiler versions that a package
should be built with.  Compilers have a name and a version list." -/
structure Compiler where
  name : String
  versions : VersionList
deriving DecidableEq, Repr

/-- `Compiler.satisfies(other)`: the names agree and the version lists
overlap. -/
def Compiler.satisfies (c other : Compiler) : Bool :=
  c.name == other.name && vlOverlaps c.versions other.versions

/-- `Compiler.copy()`: a fresh compiler with a copy of the version list. -/
def Compiler.copy (c : Compiler) : Compiler := ⟨c.name, c.versions⟩

/-- `Compiler.__str__`: the name, plus `@` and the comma-joined version list
when it is nonempty and not `:`. -/
def compVersionStr (v : Version) : String :=
  String.intercalate "." (v.map fun c =>
    match c with
    | .num n => toString n
    | .alpha s => s)

/-- String form of a version-list element (`spack.version` pretty printer,
modelled from the spec's surface syntax `id | id: | :id | id:id`). -/
def velemStr : VElem → String
  | .ver v => compVersionStr v
  | .range lo hi =>
    (match lo with | none => "" | some l => compVersionStr l) ++ ":" ++
    (match hi with | none => "" | some h => compVersionStr h)

/-- Comma-joined string form of a version list. -/
def vlStr (l : VersionList) : String :=
  String.intercalate "," (l.map velemStr)

/-- `Variant`: a named, build-time option, enabled or disabled. -/
structure Variant where
  name : String
  enabled : Bool
deriving DecidableEq, Repr

/-- `Variant.__str__`: `+name` when enabled, `~name` when disabled. -/
def Variant.str (v : Variant) : String :=
  (if v.enabled then "+" else "~") ++ v.name

/-- A `VariantMap` is a dict keyed by variant name; modelled as an
association list (the dict's iteration order is never observed: every read
in the source sorts the keys first). -/
abbrev VariantMap := List (String × Variant)

/-- Association-list lookup, the dict `d[k]` / `d.get(k)` operation. -/
def alookup {α : Type} (k : String) : List (String × α) → Option α
  | [] => none
  | (k', v) :: rest => if k = k' then some v else alookup k rest

/-- Association-list key membership, the dict `k in d` test. -/
def akey {α : Type} (k : String) (l : List (String × α)) : Bool :=
  (alookup k l).isSome

/-- Dict assignment `d[k] = v`: replace an existing binding or append. -/
def astore {α : Type} (k : String) (v : α) : List (String × α) → List (String × α)
  | [] => [(k, v)]
  | (k', v') :: rest =>
    if k = k' then (k, v) :: rest else (k', v') :: astore k v rest

/-- `VariantMap.satisfies(other)`: every variant name set in both maps has
the same polarity (`all(self[key].enabled == other[key].enabled for key in
other if key in self)`). -/
def variantMapSatisfies (m other : VariantMap) : Bool :=
  other.all fun kv =>
    match alookup kv.1 m with
    | none => true
    | some v => v.enabled == kv.2.enabled

/-- `VariantMap.__str__`: the variants joined in sorted key order. -/
def variantMapStr (m : VariantMap) : String :=
  String.join (((m.map Prod.fst).insertionSort (· ≤ ·)).map fun k =>
    match alookup k m with
    | none => ""
    | some v => v.str)

/-- A spec DAG node: name, versions, variants, compiler, architecture and
the outgoing `dependencies` edges (a dict keyed by dependency name,
modelled as an association list).  The `dependents` back-references form
cycles in the Python object graph and cannot live in an inductive value;
they are modelled separately (see the store-based model of `copy` below)
and are omitted here — no operation embedded on this tree reads them. -/
inductive Spec where
  | mk (name : String) (versions : VersionList) (variants : VariantMap)
      (compiler : Option Compiler) (architecture : Option String)
      (dependencies : List (String × Spec))
deriving Repr

/-- Package name of the node. -/
def Spec.name : Spec → String
  | .mk n _ _ _ _ _ => n

/-- Version constraints of the node. -/
def Spec.versions : Spec → VersionList
  | .mk _ v _ _ _ _ => v

/-- Variant settings of the node. -/
def Spec.variants : Spec → VariantMap
  | .mk _ _ va _ _ _ => va

/-- Compiler constraint of the node, when present. -/
def Spec.compiler : Spec → Option Compiler
  | .mk _ _ _ c _ _ => c

/-- Architecture of the node, when present. -/
def Spec.architecture : Spec → Option String
  | .mk _ _ _ _ a _ => a

/-- Outgoing dependency edges of the node. -/
def Spec.dependencies : Spec → List (String × Spec)
  | .mk _ _ _ _ _ d => d

mutual
/-- Number of nodes in the tree underlying a spec. -/
def Spec.size : Spec → Nat
  | .mk _ _ _ _ _ deps => 1 + Spec.sizeDeps deps

/-- Total size of a dependency list. -/
def Spec.sizeDeps : List (String × Spec) → Nat
  | [] => 0
  | (_, c) :: rest => Spec.size c + Spec.sizeDeps rest
end

theorem spec_size_pos (s : Spec) : 0 < s.size := by
  cases s; simp [Spec.size]

theorem size_lt_of_mem {deps : List (String × Spec)} {p : String × Spec}
    (h : p ∈ deps) : p.2.size < 1 + Spec.sizeDeps deps := by
  induction deps with
  | nil => cases h
  | cons q rest ih =>
    rcases List.mem_cons.mp h with h | h
    · subst h
      obtain ⟨n, c⟩ := p
      simp [Spec.sizeDeps]; omega
    · have := ih h
      obtain ⟨n, c⟩ := q
      simp [Spec.sizeDeps] at *
      omega

theorem sizeDeps_eq_sum (l : List (String × Spec)) :
    Spec.sizeDeps l = (l.map fun p => p.2.size).sum := by
  induction l with
  | nil => rfl
  | cons p rest ih => obtain ⟨n, c⟩ := p; simp [Spec.sizeDeps, ih]

theorem sizeDeps_perm {l l' : List (String × Spec)} (h : l.Perm l') :
    Spec.sizeDeps l = Spec.sizeDeps l' := by
  rw [sizeDeps_eq_sum, sizeDeps_eq_sum]
  exact (h.map _).sum_eq

/-- The dependency dict iterated in sorted key order:
`for name in sorted(self.dependencies)` in the source. -/
def Spec.sortedDeps (s : Spec) : List (String × Spec) :=
  s.dependencies.insertionSort (fun a b => a.1 ≤ b.1)

theorem sortedDeps_perm (s : Spec) : s.sortedDeps.Perm s.dependencies :=
  List.perm_insertionSort _ _

theorem size_lt_of_mem_sortedDeps {s : Spec} {p : String × Spec}
    (h : p ∈ s.sortedDeps) : p.2.size < s.size := by
  have hm : p ∈ s.dependencies := (sortedDeps_perm s).mem_iff.mp h
  cases s with
  | mk n v va c a deps =>
    have := @size_lt_of_mem deps p hm
    simpa [Spec.size] using this

/-! ## The error taxonomy

All spec errors descend from `SpecError`.  The `Unsatisfiable*` subclasses
carry `(provided, required, constraint_type)`.  Python `super(cls, self)`
verifies that `self` is an instance of `cls` and raises `TypeError`
otherwise; the class graph below models exactly the part of the hierarchy
those calls inspect. -/

/-- Payload object carried by an `UnsatisfiableSpecError`. -/
inductive UnsatPayload where
  | pkgName (n : String)
  | vlist (v : VersionList)
  | variant (v : Variant)
  | comp (c : Compiler)
  | arch (a : String)
  | specPayload (s : Spec)
deriving Repr

/-- The spec-error values of the module. -/
inductive SpecErr where
  | specParse (msg : String)
  | dupDependency (msg : String)
  | dupVariant (msg : String)
  | dupCompiler (msg : String)
  | unknownCompiler (msg : String)
  | dupArchitecture (msg : String)
  | inconsistent (msg : String)
  | invalidDependency (msg : String)
  | unsat (constraintType : String) (provided required : UnsatPayload)
deriving Repr

/-- Python-level outcomes: builtin exceptions or a `SpecError`. -/
inductive PyError where
  | typeError (msg : String)
  | valueError (msg : String)
  | keyError (msg : String)
  | spec (e : SpecErr)
deriving Repr

/-- The classes in the `UnsatisfiableSpecError` hierarchy (plus their
ancestors) that the `super(...)` calls of the source mention. -/
inductive ErrCls where
  | specError
  | unsatSpec
  | unsatName
  | unsatVersion
  | unsatCompiler
  | unsatVariant
  | unsatArch
  | unsatProvider
  | unsatDependency
deriving DecidableEq, Repr

/-- Base class of each error class, per the `class X(Y)` headers of the
source. -/
def ErrCls.parent : ErrCls → Option ErrCls
  | .specError => none
  | .unsatSpec => some .specError
  | .unsatName => some .unsatSpec
  | .unsatVersion => some .unsatSpec
  | .unsatCompiler => some .unsatSpec
  | .unsatVariant => some .unsatSpec
  | .unsatArch => some .unsatSpec
  | .unsatProvider => some .unsatSpec
  | .unsatDependency => some .unsatSpec

/-- `isinstance`-style subclass test (the hierarchy has depth at most 2). -/
def ErrCls.isSubclassOf (a b : ErrCls) : Bool :=
  a = b ||
    match a.parent with
    | none => false
    | some p =>
      p = b ||
        match p.parent with
        | none => false
        | some q => q = b

/-- Python 2 `super(target, self).__init__(provided, required, ctype)` for
the unsatisfiable-spec hierarchy: `super` demands that `self`'s class be a
subclass of `target`, otherwise the constructor call itself raises
`TypeError: super(type, obj): obj must be an instance or subtype of type`. -/
def superInitUnsat (selfCls target : ErrCls) (ctype : String)
    (p r : UnsatPayload) : Except PyError SpecErr :=
  if selfCls.isSubclassOf target then .ok (.unsat ctype p r)
  else .error (.typeError "super(type, obj): obj must be an instance or subtype of type")

/-- `UnsatisfiableSpecNameError.__init__` invokes
`super(UnsatisfiableVersionSpecError, self).__init__(provided, required,
"name")` (source line 1405) although the class derives from
`UnsatisfiableSpecError`, not from `UnsatisfiableVersionSpecError`. -/
def mkUnsatisfiableSpecNameError (provided required : String) :
    Except PyError SpecErr :=
  superInitUnsat .unsatName .unsatVersion "name"
    (.pkgName provided) (.pkgName required)

/-- `UnsatisfiableVersionSpecError.__init__`: a well-formed
`super(UnsatisfiableVersionSpecError, self)` call. -/
def mkUnsatisfiableVersionSpecError (provided required : VersionList) :
    Except PyError SpecErr :=
  superInitUnsat .unsatVersion .unsatVersion "version"
    (.vlist provided) (.vlist required)

/-- `UnsatisfiableCompilerSpecError.__init__`. -/
def mkUnsatisfiableCompilerSpecError (provided required : Compiler) :
    Except PyError SpecErr :=
  superInitUnsat .unsatCompiler .unsatCompiler "compiler"
    (.comp provided) (.comp required)

/-- `UnsatisfiableVariantSpecError.__init__`. -/
def mkUnsatisfiableVariantSpecError (provided required : Variant) :
    Except PyError SpecErr :=
  superInitUnsat .unsatVariant .unsatVariant "variant"
    (.variant provided) (.variant required)

/-- `UnsatisfiableArchitectureSpecError.__init__`. -/
def mkUnsatisfiableArchitectureSpecError (provided required : String) :
    Except PyError SpecErr :=
  superInitUnsat .unsatArch .unsatArch "architecture"
    (.arch provided) (.arch required)

/-- `UnsatisfiableDependencySpecError.__init__`. -/
def mkUnsatisfiableDependencySpecError (provided required : Spec) :
    Except PyError SpecErr :=
  superInitUnsat .unsatDependency .unsatDependency "dependency"
    (.specPayload provided) (.specPayload required)

/-- `raise E(...)`: when constructing the exception itself raises (the
`super` typo), the inner exception propagates instead. -/
def raiseErr (x : Except PyError SpecErr) : PyError :=
  match x with
  | .ok e => .spec e
  | .error e => e

/-! ## Traversal (`Spec.preorder_traversal`) -/

/-- The `cover` keyword of `preorder_traversal`. -/
inductive Cover where
  | nodes
  | edges
  | paths
deriving DecidableEq, Repr

mutual
/-- `Spec.preorder_traversal(visited, d, cover=…, key=…, root=…)`: the
visited set is threaded explicitly, the generator becomes a list of
`(depth, node)` pairs (the `depth` keyword merely chooses whether the depth
of each pair is shown).  Children are visited in sorted name order. -/
def Spec.trav {K : Type} [DecidableEq K] (cover : Cover) (k : Spec → K)
    (yieldRoot : Bool) (v : List K) (d : Nat) (s : Spec) :
    List K × List (Nat × Spec) :=
  let key := k s
  let pre : List (Nat × Spec) := if yieldRoot || d > 0 then [(d, s)] else []
  if key ∈ v then
    match cover with
    | .nodes => (v, [])
    | .edges => (v, pre)
    | .paths =>
      let r := Spec.travList cover k yieldRoot (key :: v) d s.sortedDeps
      (r.1, pre ++ r.2)
  else
    let r := Spec.travList cover k yieldRoot (key :: v) d s.sortedDeps
    (r.1, pre ++ r.2)
termination_by 2 * s.size
decreasing_by
  all_goals
    have h1 : Spec.sizeDeps s.sortedDeps = Spec.sizeDeps s.dependencies :=
      sizeDeps_perm (sortedDeps_perm s)
    cases s with
    | mk n v va c a deps =>
      simp [Spec.dependencies] at h1
      simp [Spec.size, h1]
      omega

/-- Traversal of a dependency list (the `for name in sorted(...)` loop);
`d` is the parent's depth, the children run at `d+1`. -/
def Spec.travList {K : Type} [DecidableEq K] (cover : Cover) (k : Spec → K)
    (yieldRoot : Bool) (v : List K) (d : Nat) :
    List (String × Spec) → List K × List (Nat × Spec)
  | [] => (v, [])
  | (_, c) :: rest =>
    let r := Spec.trav cover k yieldRoot v (d + 1) c
    let r2 := Spec.travList cover k yieldRoot r.1 d rest
    (r2.1, r.2 ++ r2.2)
termination_by l => 2 * Spec.sizeDeps l + 1
decreasing_by
  · have := spec_size_pos c; simp [Spec.sizeDeps]; omega
  · have := spec_size_pos c; simp [Spec.sizeDeps]; omega
end

/-- The full traversal entry point (`visited=None, d=0`). -/
def Spec.preorder {K : Type} [DecidableEq K] (cover : Cover) (k : Spec → K)
    (yieldRoot : Bool) (s : Spec) : List (Nat × Spec) :=
  (Spec.trav cover k yieldRoot [] 0 s).2

mutual
/-- The naive preorder node list of the tree (every position listed,
children in sorted name order), with depths. -/
def Spec.allNodesD (d : Nat) (s : Spec) : List (Nat × Spec) :=
  (d, s) :: Spec.allNodesListD (d + 1) s.sortedDeps
termination_by 2 * s.size
decreasing_by
  have h1 : Spec.sizeDeps s.sortedDeps = Spec.sizeDeps s.dependencies :=
    sizeDeps_perm (sortedDeps_perm s)
  cases s with
  | mk n v va c a deps =>
    simp [Spec.dependencies] at h1
    simp [Spec.size, h1]
    omega

/-- Naive preorder over a dependency list at depth `d`. -/
def Spec.allNodesListD (d : Nat) : List (String × Spec) → List (Nat × Spec)
  | [] => []
  | (_, c) :: rest => Spec.allNodesD d c ++ Spec.allNodesListD d rest
termination_by l => 2 * Spec.sizeDeps l + 1
decreasing_by
  · have := spec_size_pos c; simp [Spec.sizeDeps]; omega
  · have := spec_size_pos c; simp [Spec.sizeDeps]; omega
end

/-- All nodes of the tree in preorder (children in sorted name order). -/
def Spec.allNodes (s : Spec) : List Spec :=
  (Spec.allNodesD 0 s).map Prod.snd

/-- Keep the first occurrence of every key, given an initial visited set:
the reference behaviour of a `cover='nodes'` traversal. -/
def dedupD {K : Type} [DecidableEq K] (k : Spec → K) :
    List K → List (Nat × Spec) → List (Nat × Spec)
  | _, [] => []
  | v, (d, s) :: rest =>
    if k s ∈ v then dedupD k v rest
    else (d, s) :: dedupD k (k s :: v) rest

/-! ## Canonical formatting (`Spec.format`, `Spec.__str__`) -/

/-- The character loop of `Spec.format` (non-color path): `escape` is set
after a `$`, `compilerFlag` after a `$%` so that a following `@` binds to
the compiler.  A `$` as the last character raises `ValueError`.  The `$#`
directive emits a SHA-1 fingerprint of the dependency map; cryptographic
hashing is outside the modelled fragment (no claim mentions it) and the
directive produces no output here. -/
def formatGo (s : Spec) (fmtStr : String) :
    List Char → Bool → Bool → String → Except PyError String
  | [], _, _, acc => .ok acc
  | c :: rest, escape, compilerFlag, acc =>
    if escape then
      let out :=
        if c = '_' then acc ++ s.name
        else if c = '@' then
          if s.versions ≠ [] ∧ s.versions ≠ anyVersionList then
            acc ++ "@" ++ vlStr s.versions
          else acc
        else if c = '%' then
          match s.compiler with
          | some co => acc ++ "%" ++ co.name
          | none => acc
        else if c = '+' then
          if s.variants ≠ [] then acc ++ variantMapStr s.variants else acc
        else if c = '=' then
          match s.architecture with
          | some a => acc ++ "=" ++ a
          | none => acc
        else if c = '$' then acc ++ "$"
        else acc
      formatGo s fmtStr rest false (if c = '%' then true else compilerFlag) out
    else if compilerFlag then
      if c = '@' then
        let out :=
          match s.compiler with
          | some co =>
            if co.versions ≠ [] then acc ++ "@" ++ vlStr co.versions else acc
          | none => acc
        formatGo s fmtStr rest false false out
      else if c = '$' then
        formatGo s fmtStr rest true false acc
      else
        formatGo s fmtStr rest false false (acc.push c)
    else if c = '$' then
      if rest.isEmpty then
        .error (.valueError ("Error: unterminated $ in format: '" ++ fmtStr ++ "'"))
      else formatGo s fmtStr rest true compilerFlag acc
    else formatGo s fmtStr rest escape compilerFlag (acc.push c)

/-- `Spec.format(format_string)`. -/
def Spec.fmt (s : Spec) (f : String) : Except PyError String :=
  formatGo s f f.data false false ""

/-- The default format string, `'$_$@$%@$+$='`. -/
def defaultFormat : String := "$_$@$%@$+$="

/-- `Spec.format()` with the default format string.  That format never
reaches the unterminated-`$` error (its last character is `=`), so the
error case below is dead; see `fmt_default_ok`. -/
def Spec.fmtD (s : Spec) : String :=
  match s.fmt defaultFormat with
  | .ok r => r
  | .error _ => ""

theorem fmt_default_ok (s : Spec) : s.fmt defaultFormat = .ok s.fmtD := by
  have : ∃ r, s.fmt defaultFormat = .ok r := by
    simp only [Spec.fmt, defaultFormat]
    simp [formatGo]
  obtain ⟨r, hr⟩ := this
  simp [Spec.fmtD, hr]

/-- `Spec.__str__`: the default format of the root, then `^` plus the
default format of every transitive dependency in sorted dep-name order:
`preorder_traversal(key=by_name, root=False)`, then `sorted(key=by_name)`,
each rendered with `format()`. -/
def Spec.str (s : Spec) : String :=
  let deps := (Spec.preorder Cover.nodes Spec.name false s).map Prod.snd
  let sortedD := deps.insertionSort (fun a b => a.name ≤ b.name)
  s.fmtD ++ String.join (sortedD.map fun d => "^" ++ d.fmtD)

/-! ## The parser-facing mutators of `Spec` -/

/-- Replace the version list of a node. -/
def Spec.withVersions : Spec → VersionList → Spec
  | .mk n _ va c a d, v => .mk n v va c a d

/-- Replace the variant map of a node. -/
def Spec.withVariants : Spec → VariantMap → Spec
  | .mk n v _ c a d, va => .mk n v va c a d

/-- Replace the compiler of a node. -/
def Spec.withCompiler : Spec → Option Compiler → Spec
  | .mk n v va _ a d, c => .mk n v va c a d

/-- Replace the architecture of a node. -/
def Spec.withArchitecture : Spec → Option String → Spec
  | .mk n v va c _ d, a => .mk n v va c a d

/-- Replace the dependency map of a node. -/
def Spec.withDependencies : Spec → List (String × Spec) → Spec
  | .mk n v va c a _, d => .mk n v va c a d

/-- `Spec._add_version`: add one allowable version. -/
def Spec.addVersion (s : Spec) (e : VElem) : Spec :=
  s.withVersions (vlAdd e s.versions)

/-- `Spec._add_variant`: raises `DuplicateVariantError` when the name is
already present. -/
def Spec.addVariant (s : Spec) (n : String) (enabled : Bool) :
    Except PyError Spec :=
  if akey n s.variants then
    .error (.spec (.dupVariant ("Cannot specify variant '" ++ n ++ "' twice")))
  else .ok (s.withVariants (astore n ⟨n, enabled⟩ s.variants))

/-- `Spec._set_compiler`: raises `DuplicateCompilerError` when a compiler
is already set. -/
def Spec.setCompiler (s : Spec) (c : Compiler) : Except PyError Spec :=
  if s.compiler.isSome then
    .error (.spec (.dupCompiler ("Spec for '" ++ s.name ++ "' cannot have two compilers.")))
  else .ok (s.withCompiler (some c))

/-- `Spec._set_architecture`: raises `DuplicateArchitectureError` when an
architecture is already set. -/
def Spec.setArchitecture (s : Spec) (a : String) : Except PyError Spec :=
  if s.architecture.isSome then
    .error (.spec (.dupArchitecture ("Spec for '" ++ s.name ++ "' cannot have two architectures.")))
  else .ok (s.withArchitecture (some a))

/-- `Spec._add_dependency`: raises `DuplicateDependencyError` when a
dependency of the same name exists; on success stores the dependency
(the mirrored `spec.dependents[self.name] = self` back-reference cannot be
stored in a tree value; see the store-based model of the DAG for it). -/
def Spec.addDependency (s dep : Spec) : Except PyError Spec :=
  if akey dep.name s.dependencies then
    .error (.spec (.dupDependency ("Cannot depend on '" ++ dep.str ++ "' twice")))
  else .ok (s.withDependencies (astore dep.name dep s.dependencies))

/-! ## Lexer and parser -/

/-- The token kinds of the spec grammar (`DEP AT COLON COMMA ON OFF PCT EQ
ID`). -/
inductive Tok where
  | dep
  | atSign
  | colon
  | comma
  | on
  | off
  | pct
  | eq
  | id (v : String)
deriving DecidableEq, Repr

/-- `\w` of the lexer's id rule: `[A-Za-z0-9_]`. -/
def isWordChar (c : Char) : Bool :=
  (('a' ≤ c && c ≤ 'z') || ('A' ≤ c && c ≤ 'Z') ||
   ('0' ≤ c && c ≤ '9') || c = '_')

/-- Continuation characters of an id: `[\w.-]`. -/
def isIdChar (c : Char) : Bool :=
  isWordChar c || c = '.' || c = '-'

/-- `SpecLexer`: single-character separators first (so a leading `-` is an
`OFF` token), then greedy ids, with whitespace skipped. -/
def lexChars : List Char → Except PyError (List Tok)
  | [] => .ok []
  | c :: rest =>
    if c = '^' then (lexChars rest).map (Tok.dep :: ·)
    else if c = '@' then (lexChars rest).map (Tok.atSign :: ·)
    else if c = ':' then (lexChars rest).map (Tok.colon :: ·)
    else if c = ',' then (lexChars rest).map (Tok.comma :: ·)
    else if c = '+' then (lexChars rest).map (Tok.on :: ·)
    else if c = '-' then (lexChars rest).map (Tok.off :: ·)
    else if c = '~' then (lexChars rest).map (Tok.off :: ·)
    else if c = '%' then (lexChars rest).map (Tok.pct :: ·)
    else if c = '=' then (lexChars rest).map (Tok.eq :: ·)
    else if isWordChar c then
      (lexChars (rest.dropWhile isIdChar)).map
        (Tok.id (String.mk (c :: rest.takeWhile isIdChar)) :: ·)
    else if c = ' ' || c = '\t' || c = '\n' || c = '\r' then lexChars rest
    else .error (.spec (.specParse "Invalid character"))
termination_by l => l.length
decreasing_by
  all_goals simp
  have := (List.dropWhile_sublist (l := rest) isIdChar).length_le
  omega

/-- Remaining-token state of the recursive-descent parser. -/
abbrev PState := List Tok

/-- `check_identifier`: ids outside versions may not contain `.`. -/
def checkIdentifier (v : String) : Except PyError Unit :=
  if v.data.contains '.' then
    .error (.spec (.specParse "Identifier cannot contain '.'"))
  else .ok ()

/-- Numeric value of a digit sequence. -/
def digitsToNat : List Char → Nat → Nat
  | [], acc => acc
  | c :: rest, acc => digitsToNat rest (acc * 10 + (c.toNat - '0'.toNat))

/-- Split a character list at dots. -/
def splitDots : List Char → List (List Char)
  | [] => [[]]
  | c :: rest =>
    let r := splitDots rest
    if c = '.' then [] :: r
    else
      match r with
      | [] => [[c]]
      | h :: t => (c :: h) :: t

/-- `Version(string)`: dotted components, numeric when all digits. -/
def versionOf (s : String) : Version :=
  (splitDots s.data).map fun cs =>
    if cs ≠ [] && cs.all (fun c => '0' ≤ c && c ≤ '9') then
      .num (digitsToNat cs 0)
    else .alpha (String.mk cs)

/-- `SpecParser.version`: a point version or a range with optional ends. -/
def parseVersion (ts : PState) : Except PyError (VElem × PState) :=
  let (start, ts1) :=
    match ts with
    | .id v :: r => (some v, r)
    | _ => (none, ts)
  match ts1 with
  | .colon :: r =>
    match r with
    | .id v :: r2 =>
      .ok (.range (start.map versionOf) (some (versionOf v)), r2)
    | _ => .ok (.range (start.map versionOf) none, r)
  | _ =>
    match start with
    | some v => .ok (.ver (versionOf v), ts1)
    | none => .error (.spec (.specParse "Invalid version specifier"))

/-- `SpecParser.version_list`: comma-separated versions.  The fuel is an
artifact of totalization; callers pass more fuel than there are tokens, so
the exhaustion branch is unreachable. -/
def parseVersionList (fuel : Nat) (ts : PState) :
    Except PyError (List VElem × PState) :=
  match parseVersion ts with
  | .error e => .error e
  | .ok (e, ts1) =>
    match fuel, ts1 with
    | fuel' + 1, .comma :: r =>
      match parseVersionList fuel' r with
      | .error err => .error err
      | .ok (es, ts2) => .ok (e :: es, ts2)
    | 0, .comma :: _ => .error (.spec (.specParse "parser fuel exhausted"))
    | _, _ => .ok ([e], ts1)
termination_by fuel

/-- `SpecParser.compiler`: an id, then an optional `@` version list; with
no version list the compiler's versions are `:`. -/
def parseCompiler (ts : PState) : Except PyError (Compiler × PState) :=
  match ts with
  | .id v :: r => do
    let _ ← checkIdentifier v
    match r with
    | .atSign :: r2 => do
      let (vl, r3) ← parseVersionList (r2.length + 1) r2
      .ok (⟨v, vl.foldl (fun acc e => vlAdd e acc) []⟩, r3)
    | _ => .ok (⟨v, [anyElem]⟩, r)
  | _ => .error (.spec (.specParse "expected ID"))

/-- `SpecParser.variant`: an id without dots. -/
def parseVariant (ts : PState) : Except PyError (String × PState) :=
  match ts with
  | .id v :: r => do
    let _ ← checkIdentifier v
    .ok (v, r)
  | _ => .error (.spec (.specParse "expected ID"))

/-- `SpecParser.architecture`: an id (no dot check in the source). -/
def parseArch (ts : PState) : Except PyError (String × PState) :=
  match ts with
  | .id v :: r => .ok (v, r)
  | _ => .error (.spec (.specParse "expected ID"))

/-- The fresh node built at the start of `SpecParser.spec`: empty versions,
variants and dependencies, no compiler, no architecture. -/
def Spec.newNode (n : String) : Spec := .mk n [] [] none none []

/-- The option loop of `SpecParser.spec`: `@version-list`, `+variant`,
`-variant`/`~variant`, `%compiler` or `=architecture`, until none
matches. -/
def parseSpecLoop (fuel : Nat) (sp : Spec) (addedVersion : Bool)
    (ts : PState) : Except PyError (Spec × PState) :=
  match fuel with
  | 0 => .error (.spec (.specParse "parser fuel exhausted"))
  | fuel + 1 =>
    match ts with
    | .atSign :: r => do
      let (vl, r2) ← parseVersionList (r.length + 1) r
      parseSpecLoop fuel (vl.foldl (fun s e => s.addVersion e) sp) true r2
    | .on :: r => do
      let (n, r2) ← parseVariant r
      let sp' ← sp.addVariant n true
      parseSpecLoop fuel sp' addedVersion r2
    | .off :: r => do
      let (n, r2) ← parseVariant r
      let sp' ← sp.addVariant n false
      parseSpecLoop fuel sp' addedVersion r2
    | .pct :: r => do
      let (c, r2) ← parseCompiler r
      let sp' ← sp.setCompiler c
      parseSpecLoop fuel sp' addedVersion r2
    | .eq :: r => do
      let (a, r2) ← parseArch r
      let sp' ← sp.setArchitecture a
      parseSpecLoop fuel sp' addedVersion r2
    | _ =>
      .ok ((if addedVersion then sp else sp.withVersions [anyElem]), ts)

/-- `SpecParser.spec` after its leading id has been consumed: checks the id
and runs the option loop; with no `@` the version list defaults to `:`. -/
def parseSpec (v : String) (ts : PState) : Except PyError (Spec × PState) := do
  let _ ← checkIdentifier v
  parseSpecLoop (ts.length + 1) (Spec.newNode v) false ts

/-- `SpecParser.do_parse`: top-level loop; an id starts a new spec, `^`
attaches a dependency to the most recent spec. -/
def doParse (fuel : Nat) (specs : List Spec) (ts : PState) :
    Except PyError (List Spec) :=
  match fuel with
  | 0 => .error (.spec (.specParse "parser fuel exhausted"))
  | fuel + 1 =>
    match ts with
    | [] => .ok specs
    | .id v :: r => do
      let (sp, r2) ← parseSpec v r
      doParse fuel (specs ++ [sp]) r2
    | .dep :: r =>
      if specs.isEmpty then
        .error (.spec (.specParse "Dependency has no package"))
      else
        match r with
        | .id v :: r2 => do
          let (sp, r3) ← parseSpec v r2
          match specs.getLast? with
          | some lastS => do
            let lastS' ← lastS.addDependency sp
            doParse fuel (specs.dropLast ++ [lastS']) r3
          | none => .error (.spec (.specParse "Dependency has no package"))
        | _ => .error (.spec (.specParse "expected ID"))
    | _ => .error (.spec (.specParse "unexpected token"))

/-- `spack.spec.parse(string)`: lex, then run `do_parse`. -/
def specParseStr (input : String) : Except PyError (List Spec) := do
  let toks ← lexChars input.data
  doParse (toks.length + 1) [] toks

/-- `Spec.__init__` on a string argument (and no extra dependency
arguments): parse, raise `ValueError` unless exactly one spec resulted,
then adopt the parsed spec's attributes. -/
def Spec.ofString (s : String) : Except PyError Spec :=
  match specParseStr s with
  | .error e => .error e
  | .ok l =>
    if l.length > 1 then
      .error (.valueError ("More than one spec in string: " ++ s))
    else
      match l with
      | [] => .error (.valueError ("String contains no specs: " ++ s))
      | sp :: _ => .ok sp

/-! ## Structural equality of specs

Python compares specs through `_cmp_key` (name, versions, variants,
architecture, compiler, dependencies, recursively); the Boolean test below
is its tree rendering.  Only its reflexivity is used. -/

mutual
/-- `Spec.__eq__` via `_cmp_key`. -/
def Spec.beq : Spec → Spec → Bool
  | .mk n v va c a d, .mk n' v' va' c' a' d' =>
    n == n' && v == v' && va == va' && c == c' && a == a' && Spec.beqDeps d d'

/-- Pointwise equality of dependency lists. -/
def Spec.beqDeps : List (String × Spec) → List (String × Spec) → Bool
  | [], [] => true
  | (k, s) :: r, (k', s') :: r' => k == k' && Spec.beq s s' && Spec.beqDeps r r'
  | _, _ => false
end

mutual
theorem spec_beq_refl (s : Spec) : Spec.beq s s = true := by
  cases s with
  | mk n v va c a d =>
    simp [Spec.beq]
    exact spec_beqDeps_refl d

theorem spec_beqDeps_refl (l : List (String × Spec)) :
    Spec.beqDeps l l = true := by
  cases l with
  | nil => rfl
  | cons p r =>
    obtain ⟨k, s⟩ := p
    simp [Spec.beqDeps]
    exact ⟨spec_beq_refl s, spec_beqDeps_refl r⟩
end

/-! ## Package registry and provider index

Modelled from the spec: `spack.packages` is not among the sources.  The
registry is the process-wide, read-only set of package declarations; a
package may declare `provides(virtual_spec, when=condition_spec)`. -/

/-- One `provides(...)` declaration of a package. -/
structure ProvideDecl where
  provided : Spec
  whenSpec : Spec

/-- A package declaration: its name and its provides clauses (only the
parts `satisfies` consumes). -/
structure PackageDecl where
  pkgName : String
  provides : List ProvideDecl

/-- The package registry. -/
abbrev Registry := List PackageDecl

/-- `packages.exists(name)`. -/
def pkgExists (reg : Registry) (n : String) : Bool :=
  reg.any fun p => p.pkgName = n

/-- `Spec.virtual`: no package of this name exists. -/
def Spec.virtual (reg : Registry) (s : Spec) : Bool :=
  ¬ pkgExists reg s.name

/-- The compiler conjunct of `Spec.satisfies` (the `check` helper of the
source skips a field that is falsy — absent — on either side). -/
def Spec.compilerCheck (s o : Spec) : Bool :=
  match s.compiler, o.compiler with
  | some cs, some co => cs.satisfies co
  | _, _ => true

/-- The architecture conjunct of `Spec.satisfies`: architectures are plain
strings, absent values pass. -/
def Spec.architectureCheck (s o : Spec) : Bool :=
  match s.architecture, o.architecture with
  | some a, some b => a == b
  | _, _ => true

/-- The versions conjunct of `Spec.satisfies` under the falsy-skip rule. -/
def Spec.versionsCheck (s o : Spec) : Bool :=
  s.versions.isEmpty || o.versions.isEmpty || vlSatisfies s.versions o.versions

/-- The variants conjunct of `Spec.satisfies` under the falsy-skip rule. -/
def Spec.variantsCheck (s o : Spec) : Bool :=
  s.variants.isEmpty || o.variants.isEmpty ||
    variantMapSatisfies s.variants o.variants

/-- The per-field part of `Spec.satisfies`, all conjuncts together. -/
def Spec.satisfiesFields (s o : Spec) : Bool :=
  s.name == o.name && s.versionsCheck o && s.variantsCheck o &&
  s.compilerCheck o && s.architectureCheck o

/-- Modelled from the spec: `ProviderIndex(candidates, restrict=True)` maps
each virtual name to the provided specs of those candidates whose `when`
clause is satisfied by the candidate's own spec, the provided versions
intersected with the candidate's (`restrict`).  `when` clauses carry no
dependencies, so the per-field check decides their satisfaction. -/
def providerIndex (reg : Registry) (candidates : List Spec) :
    List (String × List Spec) :=
  candidates.foldl
    (fun idx c =>
      match reg.find? (fun p => p.pkgName = c.name) with
      | none => idx
      | some pd =>
        pd.provides.foldl
          (fun idx pr =>
            if c.satisfiesFields pr.whenSpec then
              let restricted :=
                pr.provided.withVersions
                  (vlIntersect pr.provided.versions c.versions)
              match alookup pr.provided.name idx with
              | some l => astore pr.provided.name (l ++ [restricted]) idx
              | none => astore pr.provided.name [restricted] idx
            else idx)
          idx)
    []

/-- Modelled from the spec: `providers_for(vpkg)` returns the providers
whose declared virtual range satisfies the requested constraint. -/
def providersFor (idx : List (String × List Spec)) (vspec : Spec) :
    List Spec :=
  match alookup vspec.name idx with
  | none => []
  | some l => l.filter fun p => p.satisfiesFields vspec

/-- Modelled from the spec: `self_index.satisfies(other_index)` — for each
virtual name present in both indices, the provider sets must overlap. -/
def indexSatisfies (si oi : List (String × List Spec)) : Bool :=
  si.all fun kv =>
    match alookup kv.1 oi with
    | none => true
    | some l2 => kv.2.any fun p => l2.any fun q => Spec.beq p q

/-! ## `Spec.satisfies` and friends

The identity-keyed traversals of the source (`key=id`, the default) visit
every tree position exactly once, so on this tree model they enumerate the
naive preorder list. -/

/-- The names below a node (`preorder_traversal(root=False)` with the
identity key collects every position except the root itself). -/
def Spec.subNames (s : Spec) : List String :=
  (Spec.allNodesListD 1 s.sortedDeps).map fun p => p.2.name

/-- `Spec.common_dependencies(other)`: dependency names the two sides
share; the Python set becomes a deduplicated list (all uses are
order-insensitive). -/
def Spec.commonDependencies (s o : Spec) : List String :=
  s.subNames.dedup.filter fun n => o.subNames.contains n

/-- `Spec.dep_difference(other)`: names under `s` that are not under `o`. -/
def Spec.depDifference (s o : Spec) : List String :=
  s.subNames.dedup.filter fun n => ¬ o.subNames.contains n

/-- `Spec.__getitem__`: the first node of the full preorder traversal (the
root included) bearing the name. -/
def Spec.getItem (s : Spec) (n : String) : Option Spec :=
  s.allNodes.find? fun x => x.name = n

/-- `Spec.virtual_dependencies()`: every traversed node that is virtual. -/
def Spec.virtualDependencies (reg : Registry) (s : Spec) : List Spec :=
  s.allNodes.filter fun x => x.virtual reg

mutual
/-- `Spec.satisfies(other)` (with `deps=True`), fuel-indexed: the source
recursion `self[name].satisfies(other[name])` does not always terminate
(a node named like one of its own transitive dependencies recurses on
itself), so `none` renders "no result within `fuel` nested calls". -/
def satisfiesF (reg : Registry) : Nat → Spec → Spec → Option Bool
  | 0, _, _ => none
  | fuel + 1, s, o =>
    if s.name ≠ o.name then some false
    else if s.versionsCheck o = false then some false
    else if s.variantsCheck o = false then some false
    else if s.compilerCheck o = false then some false
    else if s.architectureCheck o = false then some false
    else satDepsF reg fuel s o
termination_by fuel _ _ => (fuel, 0, 0)

/-- `Spec.satisfies_dependencies(other)`, fuel-indexed. -/
def satDepsF (reg : Registry) : Nat → Spec → Spec → Option Bool
  | fuel, s, o =>
    if s.dependencies.isEmpty || o.dependencies.isEmpty then some true
    else
      match satCommon reg fuel s o (s.commonDependencies o) with
      | none => none
      | some false => some false
      | some true =>
        let si := providerIndex reg s.allNodes
        let oi := providerIndex reg o.allNodes
        if ¬ indexSatisfies si oi then some false
        else if (s.virtualDependencies reg).any
                  (fun v => akey v.name oi && (providersFor oi v).isEmpty) then
          some false
        else if (o.virtualDependencies reg).any
                  (fun v => akey v.name si && (providersFor si v).isEmpty) then
          some false
        else some true
termination_by fuel _ _ => (fuel, 2, 0)

/-- The `for name in self.common_dependencies(other)` loop of
`satisfies_dependencies`: `self[name].satisfies(other[name])` for each
common name (the indexings cannot fail for names common to both sides). -/
def satCommon (reg : Registry) : Nat → Spec → Spec → List String → Option Bool
  | _, _, _, [] => some true
  | fuel, s, o, n :: rest =>
    match s.getItem n, o.getItem n with
    | some sn, some on' =>
      match satisfiesF reg fuel sn on' with
      | none => none
      | some false => some false
      | some true => satCommon reg fuel s o rest
    | _, _ => satCommon reg fuel s o rest
termination_by fuel _ _ l => (fuel, 1, l.length)
end

/-! ## `Spec.constrain` -/

/-- `Compiler.constrain(other)`: raises `UnsatisfiableCompilerSpecError`
unless satisfied, then intersects the version lists. -/
def Compiler.constrain (c o : Compiler) : Except PyError Compiler :=
  if ¬ c.satisfies o then
    .error (raiseErr (mkUnsatisfiableCompilerSpecError c o))
  else .ok ⟨c.name, vlIntersect c.versions o.versions⟩

/-- The first conflicting variant pair, scanning `other`'s variants in map
order (the `for v in other.variants` loop). -/
def firstVariantConflict (sv ov : VariantMap) : Option (Variant × Variant) :=
  ov.findSome? fun kv =>
    match alookup kv.1 sv with
    | some v => if v.enabled ≠ kv.2.enabled then some (v, kv.2) else none
    | none => none

/-- The field phase of `Spec.constrain(other)`: everything before the
dependency phase — the name, version-overlap, variant and architecture
checks, the compiler merge, then the version intersection, variant update
and architecture fill. -/
def Spec.constrainFields (s o : Spec) : Except PyError Spec :=
  if s.name ≠ o.name then
    .error (raiseErr (mkUnsatisfiableSpecNameError s.name o.name))
  else if ¬ vlOverlaps s.versions o.versions then
    .error (raiseErr (mkUnsatisfiableVersionSpecError s.versions o.versions))
  else
    match firstVariantConflict s.variants o.variants with
    | some (v, ov) =>
      .error (raiseErr (mkUnsatisfiableVariantSpecError v ov))
    | none =>
      if _hArch : s.architecture.isSome ∧ o.architecture.isSome ∧
          s.architecture ≠ o.architecture then
        .error (raiseErr (mkUnsatisfiableArchitectureSpecError
          (s.architecture.getD "") (o.architecture.getD "")))
      else
        match (match s.compiler, o.compiler with
               | some cs, some co => (Compiler.constrain cs co).map some
               | none, oc => .ok oc
               | some cs, none => .ok (some cs)) with
        | .error e => .error e
        | .ok newComp =>
          .ok ((((s.withCompiler newComp).withVersions
                  (vlIntersect s.versions o.versions)).withVariants
                  (o.variants.foldl (fun m kv => astore kv.1 kv.2 m) s.variants)).withArchitecture
                  (if s.architecture.isSome then s.architecture else o.architecture))

/-- Replace the first node (in preorder, children in sorted name order)
bearing the given name — the functional rendering of the in-place mutation
`self[name].constrain(...)` of the source. -/
def Spec.updateFirstNamed (n : String) (f : Spec → Except PyError Spec)
    (s : Spec) : Except PyError Spec :=
  if s.name = n then f s
  else
    match hfind : s.sortedDeps.find?
        (fun p => p.2.allNodes.any fun x => x.name = n) with
    | none => .ok s
    | some p =>
      match Spec.updateFirstNamed n f p.2 with
      | .error e => .error e
      | .ok c' => .ok (s.withDependencies (astore p.1 c' s.dependencies))
termination_by s.size
decreasing_by
  exact size_lt_of_mem_sortedDeps (List.mem_of_find?_eq_some hfind)

mutual
/-- `Spec.copy()` on the tree: `_dup` duplicates the fields and (with
`dependencies=True`, the default) copies each dependency entry in turn
(`HashableMap.copy` deep-copies its values — modelled from the spec:
"copies are explicit and deep by default").  The clone's `dependents` map
is reset to empty — see the store model below, which makes that visible. -/
def Spec.copyTree : Spec → Spec
  | .mk n v va c a deps => .mk n v va (c.map Compiler.copy) a (Spec.copyDeps deps)

/-- Entry-wise deep copy of a dependency map. -/
def Spec.copyDeps : List (String × Spec) → List (String × Spec)
  | [] => []
  | (k, s) :: rest => (k, s.copyTree) :: Spec.copyDeps rest
end

/-- `Spec.constrain(other, deps=...)`: the field phase, then (when `deps`)
the dependency phase — the `satisfies_dependencies` guard, per-common-name
`constrain(..., deps=False)` on the first node of that name, and the copy
of `other`'s extra dependency subtrees.  Fuel feeds the embedded
`satisfies_dependencies`; `none` = no result within fuel. -/
def constrainF (reg : Registry) (fuel : Nat) (deps : Bool) (s o : Spec) :
    Option (Except PyError Spec) :=
  match s.constrainFields o with
  | .error e => some (.error e)
  | .ok s1 =>
    if ¬ deps then some (.ok s1)
    else if s1.dependencies.isEmpty || o.dependencies.isEmpty then
      some (.ok s1)
    else
      match satDepsF reg fuel s1 o with
      | none => none
      | some false =>
        some (.error (raiseErr (mkUnsatisfiableDependencySpecError s1 o)))
      | some true =>
        let afterCommon : Except PyError Spec :=
          (s1.commonDependencies o).foldl
            (fun acc n =>
              match acc with
              | .error e => .error e
              | .ok cur =>
                match o.getItem n with
                | none => .ok cur
                | some on' =>
                  cur.updateFirstNamed n (fun nd => nd.constrainFields on'))
            (.ok s1)
        match afterCommon with
        | .error e => some (.error e)
        | .ok s2 =>
          some ((o.depDifference s2).foldl
            (fun acc n =>
              match acc with
              | .error e => .error e
              | .ok cur =>
                match o.getItem n with
                | none => .ok cur
                | some on' => cur.addDependency on'.copyTree)
            ((.ok s2) : Except PyError Spec))

/-! ## `Spec.normalized` -/

/-- `Spec.normalized()`: `clone = self.copy(); clone.normalized(); return
clone` — the method invokes *itself* on the clone (source line 744)
instead of `normalize()`, so the recursion never produces a result;
fuel-indexed, `none` = no result within `fuel` nested calls. -/
def normalizedF : Nat → Spec → Option Spec
  | 0, _ => none
  | fuel + 1, s => normalizedF fuel s.copyTree

/-! ## The store model of the DAG (`Spec._dup` / `Spec.copy`)

The Python object graph carries `dependents` back-references, which are
cyclic; a tree value cannot hold them.  Nodes therefore live in a store
addressed by natural numbers (an address is a Python object identity), and
both edge maps hold addresses. -/

/-- A heap node of the spec DAG. -/
structure SNode where
  name : String
  versions : VersionList
  variants : VariantMap
  compiler : Option Compiler
  architecture : Option String
  dependencies : List (String × Nat)
  dependents : List (String × Nat)
deriving Repr

/-- The store: address = list index, allocation appends. -/
abbrev Store := List SNode

mutual
/-- `Spec.copy()` = `Spec.__new__` + `_dup(self)` on an address: the fields
are duplicated, `self.dependents = DependencyMap()` resets the clone's
back-references to empty, and `other.dependencies.copy()` copies each
dependency entry by copying the child (`HashableMap.copy` deep-copies its
values — modelled from the spec: "copying a spec copies its sub-DAG").
Returns the extended store and the clone's address; the fuel totalizes the
recursion through the store (`none` on dangling addresses or exhaustion —
both unreachable on well-formed acyclic input with fuel above the DAG
size). -/
def copyNodeF : Nat → Store → Nat → Option (Store × Nat)
  | 0, _, _ => none
  | fuel + 1, st, a =>
    match st[a]? with
    | none => none
    | some nd =>
      match copyDepsF fuel st nd.dependencies with
      | none => none
      | some (st1, newdeps) =>
        some (st1 ++ [{ nd with
                        compiler := nd.compiler.map Compiler.copy,
                        dependencies := newdeps,
                        dependents := [] }],
              st1.length)
termination_by fuel _ _ => (fuel, 0)

/-- Deep copy of a dependency address list, threading the store. -/
def copyDepsF : Nat → Store → List (String × Nat) →
    Option (Store × List (String × Nat))
  | _, st, [] => some (st, [])
  | fuel, st, (k, ca) :: rest =>
    match copyNodeF fuel st ca with
    | none => none
    | some (st1, na) =>
      match copyDepsF fuel st1 rest with
      | none => none
      | some (st2, nrest) => some (st2, (k, na) :: nrest)
termination_by fuel _ l => (fuel, l.length + 1)
end

theorem version_le_refl (v : Version) : Version.le v v = true := by
  induction v with
  | nil => rfl
  | cons a as ih => simp [Version.le, ih]

theorem velem_coveredBy_refl (e : VElem) : e.coveredBy e = true := by
  cases e with
  | ver v => simp [VElem.coveredBy]
  | range lo hi =>
    cases lo <;> cases hi <;> simp [VElem.coveredBy, version_le_refl]

theorem velem_overlap_refl (e : VElem) (h : e.wf = true) :
    e.overlap e = true := by
  cases e with
  | ver v => simp [VElem.overlap, VElem.lo, VElem.hi, version_le_refl]
  | range lo hi =>
    cases lo <;> cases hi <;>
      simp_all [VElem.overlap, VElem.lo, VElem.hi, VElem.wf]

theorem vlOverlaps_refl (l : VersionList) (h : vlWf l = true) :
    vlOverlaps l l = true := by
  cases l with
  | nil => rfl
  | cons e es =>
    have he : e.wf = true := by
      simp [vlWf, List.all_cons] at h; exact h.1
    simp [vlOverlaps, List.any_cons, velem_overlap_refl e he]

theorem vlSatisfies_refl (l : VersionList) (h : vlWf l = true) :
    vlSatisfies l l = true := by
  simp only [vlSatisfies, Bool.and_eq_true]
  refine ⟨?_, vlOverlaps_refl l h⟩
  simp only [List.all_eq_true]
  intro e he
  simp only [List.any_eq_true]
  exact ⟨e, he, velem_coveredBy_refl e⟩

/-! ## Association list lemmas -/

theorem alookup_astore_self {α : Type} (k : String) (x : α) (l : List (String × α)) :
    alookup k (astore k x l) = some x := by
  induction l with
  | nil => simp [astore, alookup]
  | cons p rest ih =>
    obtain ⟨k', v'⟩ := p
    by_cases h : k = k'
    · subst h; simp [astore, alookup]
    · simp [astore, alookup, h, ih]

theorem alookup_astore_other {α : Type} {k k' : String} (hne : k' ≠ k)
    (x : α) (l : List (String × α)) :
    alookup k' (astore k x l) = alookup k' l := by
  induction l with
  | nil => simp [astore, alookup, hne]
  | cons p rest ih =>
    obtain ⟨k0, v0⟩ := p
    by_cases h : k = k0
    · subst h
      simp [astore, alookup, hne]
    · by_cases h2 : k' = k0 <;> simp [astore, alookup, h, h2, ih]

theorem mem_astore {α : Type} {kv : String × α} {k : String} {x : α}
    {l : List (String × α)} (h : kv ∈ astore k x l) :
    kv = (k, x) ∨ kv ∈ l := by
  induction l with
  | nil => simpa [astore] using h
  | cons p rest ih =>
    obtain ⟨k0, v0⟩ := p
    by_cases hk : k = k0
    · subst hk
      simp [astore] at h
      rcases h with h | h
      · left; simp [h]
      · right; simp [h]
    · simp [astore, hk] at h
      rcases h with h | h
      · right; simp [h]
      · rcases ih h with h' | h'
        · left; exact h'
        · right; simp [h']

theorem alookup_of_nodupKeys {α : Type} {l : List (String × α)}
    (hnd : (l.map Prod.fst).Nodup) {k : String} {x : α} (hm : (k, x) ∈ l) :
    alookup k l = some x := by
  induction l with
  | nil => cases hm
  | cons p rest ih =>
    obtain ⟨k0, v0⟩ := p
    simp only [List.map_cons, List.nodup_cons] at hnd
    rcases List.mem_cons.mp hm with h | h
    · obtain ⟨h1, h2⟩ := Prod.mk.injEq .. ▸ h
      injection h with h1 h2
      subst h1; subst h2
      simp [alookup]
    · have hk : k ≠ k0 := by
        intro he; subst he
        exact hnd.1 (List.mem_map.mpr ⟨(k, x), h, rfl⟩)
      simp [alookup, hk]
      exact ih hnd.2 h

/-! ## Dedup lemmas (the reference behaviour of `cover='nodes'`) -/

/-- The visited set produced by a reference dedup pass. -/
def dedupV {K : Type} [DecidableEq K] (k : Spec → K) :
    List K → List (Nat × Spec) → List K
  | v, [] => v
  | v, (_, s) :: rest =>
    if k s ∈ v then dedupV k v rest else dedupV k (k s :: v) rest

section DedupLemmas

variable {K : Type} [DecidableEq K] (k : Spec → K)

theorem mem_dedupV (x : K) :
    ∀ (l : List (Nat × Spec)) (v : List K),
      (x ∈ dedupV k v l ↔ x ∈ v ∨ ∃ p ∈ l, k p.2 = x) := by
  intro l
  induction l with
  | nil => intro v; simp [dedupV]
  | cons p rest ih =>
    intro v
    obtain ⟨d, s⟩ := p
    by_cases h : k s ∈ v
    · simp only [dedupV, if_pos h, ih, List.mem_cons]
      constructor
      · rintro (hv | ⟨q, hq, hkq⟩)
        · exact Or.inl hv
        · exact Or.inr ⟨q, Or.inr hq, hkq⟩
      · rintro (hv | ⟨q, rfl | hq', hkq⟩)
        · exact Or.inl hv
        · exact Or.inl (hkq ▸ h)
        · exact Or.inr ⟨q, hq', hkq⟩
    · simp only [dedupV, if_neg h, ih, List.mem_cons]
      constructor
      · rintro ((rfl | hv') | ⟨q, hq, hkq⟩)
        · exact Or.inr ⟨(d, s), Or.inl rfl, rfl⟩
        · exact Or.inl hv'
        · exact Or.inr ⟨q, Or.inr hq, hkq⟩
      · rintro (hv | ⟨q, rfl | hq', hkq⟩)
        · exact Or.inl (Or.inr hv)
        · exact Or.inl (Or.inl hkq.symm)
        · exact Or.inr ⟨q, hq', hkq⟩

theorem dedupD_append :
    ∀ (l₁ l₂ : List (Nat × Spec)) (v : List K),
      dedupD k v (l₁ ++ l₂) =
        dedupD k v l₁ ++ dedupD k (dedupV k v l₁) l₂ := by
  intro l₁
  induction l₁ with
  | nil => intro l₂ v; simp [dedupD, dedupV]
  | cons p rest ih =>
    intro l₂ v
    obtain ⟨d, s⟩ := p
    by_cases h : k s ∈ v
    · simp [dedupD, dedupV, if_pos h, ih]
    · simp [dedupD, dedupV, if_neg h, ih]

theorem dedupV_append :
    ∀ (l₁ l₂ : List (Nat × Spec)) (v : List K),
      dedupV k v (l₁ ++ l₂) = dedupV k (dedupV k v l₁) l₂ := by
  intro l₁
  induction l₁ with
  | nil => intro l₂ v; simp [dedupV]
  | cons p rest ih =>
    intro l₂ v
    obtain ⟨d, s⟩ := p
    by_cases h : k s ∈ v
    · simp [dedupV, if_pos h, ih]
    · simp [dedupV, if_neg h, ih]

theorem dedupD_of_all_mem :
    ∀ (l : List (Nat × Spec)) (v : List K),
      (∀ p ∈ l, k p.2 ∈ v) → dedupD k v l = [] := by
  intro l
  induction l with
  | nil => intro v _; rfl
  | cons p rest ih =>
    intro v h
    obtain ⟨d, s⟩ := p
    have hs : k s ∈ v := h (d, s) (List.mem_cons_self _ _)
    simp [dedupD, if_pos hs]
    exact ih v fun q hq => h q (List.mem_cons_of_mem _ hq)

theorem dedupV_of_all_mem :
    ∀ (l : List (Nat × Spec)) (v : List K),
      (∀ p ∈ l, k p.2 ∈ v) → dedupV k v l = v := by
  intro l
  induction l with
  | nil => intro v _; rfl
  | cons p rest ih =>
    intro v h
    obtain ⟨d, s⟩ := p
    have hs : k s ∈ v := h (d, s) (List.mem_cons_self _ _)
    simp [dedupV, if_pos hs]
    exact ih v fun q hq => h q (List.mem_cons_of_mem _ hq)

theorem mem_keys_dedupD (x : K) :
    ∀ (l : List (Nat × Spec)) (v : List K),
      (x ∈ (dedupD k v l).map (fun p => k p.2) ↔
        (∃ p ∈ l, k p.2 = x) ∧ x ∉ v) := by
  intro l
  induction l with
  | nil => intro v; simp [dedupD]
  | cons p rest ih =>
    intro v
    obtain ⟨d, s⟩ := p
    by_cases h : k s ∈ v
    · simp only [dedupD, if_pos h, ih, List.mem_cons]
      constructor
      · rintro ⟨⟨q, hq, hkq⟩, hxv⟩
        exact ⟨⟨q, Or.inr hq, hkq⟩, hxv⟩
      · rintro ⟨⟨q, rfl | hq', hkq⟩, hxv⟩
        · exact absurd (hkq ▸ h) hxv
        · exact ⟨⟨q, hq', hkq⟩, hxv⟩
    · simp only [dedupD, if_neg h, List.map_cons, List.mem_cons, ih]
      constructor
      · rintro (rfl | ⟨⟨q, hq, hkq⟩, hxv⟩)
        · exact ⟨⟨(d, s), Or.inl rfl, rfl⟩, h⟩
        · exact ⟨⟨q, Or.inr hq, hkq⟩, fun hv => hxv (Or.inr hv)⟩
      · rintro ⟨⟨q, rfl | hq', hkq⟩, hxv⟩
        · exact Or.inl hkq.symm
        · by_cases hx : x = k s
          · exact Or.inl hx
          · exact Or.inr ⟨⟨q, hq', hkq⟩, fun hv => by
              rcases hv with h1 | h2
              · exact hx h1
              · exact hxv h2⟩

theorem nodup_keys_dedupD :
    ∀ (l : List (Nat × Spec)) (v : List K),
      ((dedupD k v l).map (fun p => k p.2)).Nodup ∧
        ∀ x ∈ (dedupD k v l).map (fun p => k p.2), x ∉ v := by
  intro l
  induction l with
  | nil => intro v; simp [dedupD]
  | cons p rest ih =>
    intro v
    obtain ⟨d, s⟩ := p
    by_cases h : k s ∈ v
    · simpa [dedupD, if_pos h] using ih v
    · have hrest := ih (k s :: v)
      simp only [dedupD, if_neg h, List.map_cons, List.nodup_cons]
      refine ⟨⟨fun hmem => ?_, hrest.1⟩, ?_⟩
      · exact (hrest.2 _ hmem) (List.mem_cons_self _ _)
      · intro x hx
        rcases List.mem_cons.mp hx with rfl | hx'
        · exact h
        · intro hv
          exact (hrest.2 _ hx') (List.mem_cons_of_mem _ hv)

end DedupLemmas

/-! ## Node-list lemmas -/

theorem allNodesD_depth :
    ∀ (d : Nat) (s : Spec) (d' : Nat),
      (Spec.allNodesD d s).map Prod.snd = (Spec.allNodesD d' s).map Prod.snd := by
  apply Spec.allNodesD.induct
    (fun d s => ∀ d',
      (Spec.allNodesD d s).map Prod.snd = (Spec.allNodesD d' s).map Prod.snd)
    (fun d l => ∀ d',
      (Spec.allNodesListD d l).map Prod.snd =
        (Spec.allNodesListD d' l).map Prod.snd)
  · intro d s ih d'
    rw [Spec.allNodesD, Spec.allNodesD]
    simp only [List.map_cons]
    rw [ih (d' + 1)]
  · intro d d'
    simp [Spec.allNodesListD]
  · intro d fst c rest ih1 ih2 d'
    simp only [Spec.allNodesListD, List.map_append]
    rw [ih1 d', ih2 d']

theorem allNodesD_snd (d : Nat) (s : Spec) :
    (Spec.allNodesD d s).map Prod.snd = s.allNodes :=
  allNodesD_depth d s 0

theorem allNodesListD_snd (d : Nat) (l : List (String × Spec)) :
    (Spec.allNodesListD d l).map Prod.snd =
      l.flatMap fun p => p.2.allNodes := by
  induction l with
  | nil => simp [Spec.allNodesListD]
  | cons p rest ih =>
    obtain ⟨nm, c⟩ := p
    simp only [Spec.allNodesListD, List.map_append, List.flatMap_cons, ih,
      allNodesD_snd]

theorem allNodes_decomp (s : Spec) :
    s.allNodes = s :: s.sortedDeps.flatMap fun p => p.2.allNodes := by
  rw [show s.allNodes = (Spec.allNodesD 0 s).map Prod.snd from rfl,
    Spec.allNodesD]
  simp only [List.map_cons]
  rw [allNodesListD_snd]

theorem mem_allNodes_self (s : Spec) : s ∈ s.allNodes := by
  rw [allNodes_decomp]; exact List.mem_cons_self _ _

theorem mem_allNodes_trans :
    ∀ (n : Nat) (s : Spec), s.size ≤ n → ∀ y ∈ s.allNodes,
      ∀ w ∈ y.allNodes, w ∈ s.allNodes := by
  intro n
  induction n with
  | zero => intro s hs; have := spec_size_pos s; omega
  | succ n ih =>
    intro s hs y hy w hw
    rw [allNodes_decomp] at hy ⊢
    rcases List.mem_cons.mp hy with rfl | hy'
    · rw [allNodes_decomp] at hw; exact hw
    · obtain ⟨p, hp, hyp⟩ := List.mem_flatMap.mp hy'
      have hsz : p.2.size ≤ n := by
        have := size_lt_of_mem_sortedDeps hp
        omega
      exact List.mem_cons_of_mem _
        (List.mem_flatMap.mpr ⟨p, hp, ih p.2 hsz y hyp w hw⟩)

theorem allNodes_trans {s y w : Spec} (hy : y ∈ s.allNodes)
    (hw : w ∈ y.allNodes) : w ∈ s.allNodes :=
  mem_allNodes_trans s.size s le_rfl y hy w hw

theorem size_le_of_mem_allNodes :
    ∀ (n : Nat) (s : Spec), s.size ≤ n → ∀ y ∈ s.allNodes,
      y.size ≤ s.size := by
  intro n
  induction n with
  | zero => intro s hs; have := spec_size_pos s; omega
  | succ n ih =>
    intro s hs y hy
    rw [allNodes_decomp] at hy
    rcases List.mem_cons.mp hy with rfl | hy'
    · exact le_rfl
    · obtain ⟨p, hp, hyp⟩ := List.mem_flatMap.mp hy'
      have h1 := size_lt_of_mem_sortedDeps hp
      have h2 : p.2.size ≤ n := by omega
      have := ih p.2 h2 y hyp
      omega

theorem size_lt_of_mem_child {s y : Spec} {p : String × Spec}
    (hp : p ∈ s.sortedDeps) (hy : y ∈ p.2.allNodes) : y.size < s.size := by
  have h1 := size_lt_of_mem_sortedDeps hp
  have h2 := size_le_of_mem_allNodes p.2.size p.2 le_rfl y hy
  omega

/-- The non-root positions of a tree, in sorted preorder. -/
def Spec.tailNodes (s : Spec) : List Spec :=
  (Spec.allNodesListD 1 s.sortedDeps).map Prod.snd

theorem tailNodes_eq (s : Spec) :
    s.tailNodes = s.sortedDeps.flatMap fun p => p.2.allNodes :=
  allNodesListD_snd 1 s.sortedDeps

theorem size_lt_of_mem_tailNodes {s y : Spec} (hy : y ∈ s.tailNodes) :
    y.size < s.size := by
  rw [tailNodes_eq] at hy
  obtain ⟨p, hp, hyp⟩ := List.mem_flatMap.mp hy
  exact size_lt_of_mem_child hp hyp

theorem mem_allNodes_of_mem_tailNodes {s y : Spec} (hy : y ∈ s.tailNodes) :
    y ∈ s.allNodes := by
  rw [allNodes_decomp]
  rw [tailNodes_eq] at hy
  exact List.mem_cons_of_mem _ hy

theorem subNames_eq (s : Spec) :
    s.subNames = s.tailNodes.map Spec.name := by
  simp [Spec.subNames, Spec.tailNodes, List.map_map]

/-! ## The `cover='nodes'` traversal is first-visit dedup of the preorder

The key function is assumed to identify nodes (the traversal's "identity
key"): on the reachable node set, equal keys mean equal nodes. -/

/-- The key function identifies the nodes of `N`. -/
def KeyInj {K : Type} (k : Spec → K) (N : List Spec) : Prop :=
  ∀ x ∈ N, ∀ y ∈ N, k x = k y → x = y

/-- The visited set is subtree-closed below `s`: whenever the key of a node
of `s`'s subtree is visited, so are all keys of that node's own subtree. -/
def TravClosed {K : Type} (k : Spec → K) (v : List K) (s : Spec) : Prop :=
  ∀ y ∈ s.allNodes, k y ∈ v → ∀ w ∈ y.allNodes, k w ∈ v

theorem trav_nodes_main {K : Type} [DecidableEq K] (k : Spec → K)
    (N : List Spec) (hinj : KeyInj k N) (yr : Bool) :
    ∀ (v : List K) (d : Nat) (s : Spec),
      (∀ y ∈ s.allNodes, y ∈ N) → TravClosed k v s →
      Spec.trav Cover.nodes k yr v d s =
        (dedupV k v (Spec.allNodesD d s),
         if yr || d > 0 then dedupD k v (Spec.allNodesD d s)
         else (dedupD k v (Spec.allNodesD d s)).tail) := by
  apply Spec.trav.induct Cover.nodes k yr
    (fun v d s =>
      (∀ y ∈ s.allNodes, y ∈ N) → TravClosed k v s →
      Spec.trav Cover.nodes k yr v d s =
        (dedupV k v (Spec.allNodesD d s),
         if yr || d > 0 then dedupD k v (Spec.allNodesD d s)
         else (dedupD k v (Spec.allNodesD d s)).tail))
    (fun v d l =>
      (∀ p ∈ l, ∀ y ∈ p.2.allNodes, y ∈ N) →
      (∀ p ∈ l, TravClosed k v p.2) →
      Spec.travList Cover.nodes k yr v d l =
        (dedupV k v (Spec.allNodesListD (d + 1) l),
         dedupD k v (Spec.allNodesListD (d + 1) l)))
  · -- visited, cover = nodes: return with nothing yielded, nothing visited
    intro v d s key hkey hcov hN hC
    have hk : k s ∈ v := hkey
    have hall : ∀ w ∈ s.allNodes, k w ∈ v :=
      hC s (mem_allNodes_self s) hk
    have hallP : ∀ p ∈ Spec.allNodesD d s, k p.2 ∈ v := by
      intro p hp
      apply hall
      rw [show s.allNodes = (Spec.allNodesD d s).map Prod.snd from
        (allNodesD_snd d s).symm]
      exact List.mem_map.mpr ⟨p, hp, rfl⟩
    rw [dedupD_of_all_mem k _ v hallP, dedupV_of_all_mem k _ v hallP]
    simp [Spec.trav, hk]
  · -- visited, cover = edges: impossible, the cover is nodes
    intro v d s key hkey hcov
    exact absurd hcov (by decide)
  · -- visited, cover = paths: impossible, the cover is nodes
    intro v d s key hkey hcov
    exact absurd hcov (by decide)
  · -- unvisited: yield (depending on root/depth), mark, descend
    intro v d s key hkey ih hN hC
    have hk : k s ∉ v := hkey
    have hNsub : ∀ p ∈ s.sortedDeps, ∀ y ∈ p.2.allNodes, y ∈ N := by
      intro p hp y hy
      apply hN
      rw [allNodes_decomp]
      exact List.mem_cons_of_mem _ (List.mem_flatMap.mpr ⟨p, hp, hy⟩)
    have hCsub : ∀ p ∈ s.sortedDeps, TravClosed k (k s :: v) p.2 := by
      intro p hp y hy hky w hw
      have hyN : y ∈ s.allNodes := by
        rw [allNodes_decomp]
        exact List.mem_cons_of_mem _ (List.mem_flatMap.mpr ⟨p, hp, hy⟩)
      rcases List.mem_cons.mp hky with hks | hkv
      · -- k y = k s would identify y with s, impossible below s
        have hyEq : y = s := hinj y (hN y hyN) s (hN s (mem_allNodes_self s)) hks
        have := size_lt_of_mem_child hp hy
        rw [hyEq] at this
        omega
      · exact List.mem_cons_of_mem _ (hC y hyN hkv w hw)
    have hlist := ih hNsub hCsub
    have hVD : dedupV k v (Spec.allNodesD d s) =
        dedupV k (k s :: v) (Spec.allNodesListD (d + 1) s.sortedDeps) := by
      rw [Spec.allNodesD]
      simp [dedupV, hk]
    have hDD : dedupD k v (Spec.allNodesD d s) =
        (d, s) :: dedupD k (k s :: v) (Spec.allNodesListD (d + 1) s.sortedDeps) := by
      rw [Spec.allNodesD]
      simp [dedupD, hk]
    rw [hVD, hDD]
    simp only [Spec.trav, hk]
    rw [hlist]
    by_cases hc : yr = true ∨ 0 < d <;> simp [hc]
  · -- empty dependency list
    intro v d hN hC
    rw [Spec.travList]
    simp [Spec.allNodesListD, dedupD, dedupV]
  · -- one child, then the rest with the child's visited set
    intro v d nm c rest r ih1 ih2 hN hC
    have hNc : ∀ y ∈ c.allNodes, y ∈ N := fun y hy =>
      hN (nm, c) (List.mem_cons_self _ _) y hy
    have hCc : TravClosed k v c := hC (nm, c) (List.mem_cons_self _ _)
    have hr : Spec.trav Cover.nodes k yr v (d + 1) c =
        (dedupV k v (Spec.allNodesD (d + 1) c),
         dedupD k v (Spec.allNodesD (d + 1) c)) := by
      rw [ih1 hNc hCc]
      simp
    have hNrest : ∀ p ∈ rest, ∀ y ∈ p.2.allNodes, y ∈ N := fun p hp =>
      hN p (List.mem_cons_of_mem _ hp)
    have hCrest : ∀ p ∈ rest,
        TravClosed k (dedupV k v (Spec.allNodesD (d + 1) c)) p.2 := by
      intro p hp y hy hky w hw
      have hyN : y ∈ N := hN p (List.mem_cons_of_mem _ hp) y hy
      rcases (mem_dedupV k (k y) _ v).mp hky with hkv | ⟨q, hq, hkq⟩
      · exact (mem_dedupV k (k w) _ v).mpr
          (Or.inl (hC p (List.mem_cons_of_mem _ hp) y hy hkv w hw))
      · have hq2 : q.2 ∈ c.allNodes := by
          rw [show c.allNodes = (Spec.allNodesD (d + 1) c).map Prod.snd from
            (allNodesD_snd (d + 1) c).symm]
          exact List.mem_map.mpr ⟨q, hq, rfl⟩
        have hyEq : y = q.2 := hinj y hyN q.2 (hNc q.2 hq2) hkq.symm
        have hwc : w ∈ c.allNodes := allNodes_trans hq2 (hyEq ▸ hw)
        have hex : ∃ q' ∈ Spec.allNodesD (d + 1) c, k q'.2 = k w := by
          have hw2 : w ∈ (Spec.allNodesD (d + 1) c).map Prod.snd := by
            rw [allNodesD_snd]; exact hwc
          obtain ⟨q', hq', hq'w⟩ := List.mem_map.mp hw2
          exact ⟨q', hq', by rw [hq'w]⟩
        exact (mem_dedupV k (k w) _ v).mpr (Or.inr hex)
    have hr1 : r.1 = dedupV k v (Spec.allNodesD (d + 1) c) := by
      show (Spec.trav Cover.nodes k yr v (d + 1) c).1 = _
      rw [hr]
    have hlist := ih2 hNrest (hr1 ▸ hCrest)
    rw [hr1] at hlist
    have hsplit : Spec.allNodesListD (d + 1) ((nm, c) :: rest) =
        Spec.allNodesD (d + 1) c ++ Spec.allNodesListD (d + 1) rest := by
      rw [Spec.allNodesListD]
    simp only [Spec.travList]
    rw [hsplit, dedupV_append, dedupD_append]
    simp only [hr, hlist]

theorem travClosed_nil {K : Type} (k : Spec → K) (s : Spec) :
    TravClosed k [] s := by
  intro y _ hky
  cases hky

theorem preorder_nodes_dedup {K : Type} [DecidableEq K] (k : Spec → K)
    (s : Spec) (hinj : KeyInj k s.allNodes) :
    Spec.preorder Cover.nodes k true s = dedupD k [] (Spec.allNodesD 0 s) := by
  have h := trav_nodes_main k s.allNodes hinj true [] 0 s
    (fun y hy => hy) (travClosed_nil k s)
  simp only [Spec.preorder, h]
  simp

theorem preorder_nodes_dedup_noroot {K : Type} [DecidableEq K]
    (k : Spec → K) (s : Spec) (hinj : KeyInj k s.allNodes) :
    Spec.preorder Cover.nodes k false s =
      dedupD k [k s] (Spec.allNodesListD 1 s.sortedDeps) := by
  have h := trav_nodes_main k s.allNodes hinj false [] 0 s
    (fun y hy => hy) (travClosed_nil k s)
  simp only [Spec.preorder, h]
  rw [Spec.allNodesD]
  simp [dedupD]

/-! ## The store copy allocates only back-reference-free nodes -/

theorem copyNode_fresh :
    ∀ (fuel : Nat),
      (∀ (st : Store) (a : Nat) (st' : Store) (r : Nat),
        copyNodeF fuel st a = some (st', r) →
          (∀ i, i < st.length → st'[i]? = st[i]?) ∧
          st.length ≤ st'.length ∧
          (∀ i nd, st.length ≤ i → st'[i]? = some nd → nd.dependents = [])) ∧
      (∀ (l : List (String × Nat)) (st : Store) (st' : Store)
          (nl : List (String × Nat)),
        copyDepsF fuel st l = some (st', nl) →
          (∀ i, i < st.length → st'[i]? = st[i]?) ∧
          st.length ≤ st'.length ∧
          (∀ i nd, st.length ≤ i → st'[i]? = some nd → nd.dependents = [])) := by
  intro fuel
  induction fuel with
  | zero =>
    constructor
    · intro st a st' r h
      simp [copyNodeF] at h
    · intro l st st' nl h
      cases l with
      | nil =>
        simp [copyDepsF] at h
        obtain ⟨h1, _⟩ := h
        subst h1
        exact ⟨fun i _ => rfl, le_rfl, fun i nd hi hg => by
          rw [List.getElem?_eq_none (by omega)] at hg
          cases hg⟩
      | cons p rest =>
        obtain ⟨nm, ca⟩ := p
        simp [copyDepsF, copyNodeF] at h
  | succ fuel ih =>
    have hnode : ∀ (st : Store) (a : Nat) (st' : Store) (r : Nat),
        copyNodeF (fuel + 1) st a = some (st', r) →
          (∀ i, i < st.length → st'[i]? = st[i]?) ∧
          st.length ≤ st'.length ∧
          (∀ i nd, st.length ≤ i → st'[i]? = some nd →
            nd.dependents = []) := by
      intro st a st' r h
      rw [copyNodeF] at h
      split at h
      · cases h
      · rename_i nd _hget
        split at h
        · cases h
        · rename_i st1 newdeps hdeps
          simp only [Option.some.injEq, Prod.mk.injEq] at h
          obtain ⟨hst', _hr⟩ := h
          subst hst'
          have hprev := ih.2 nd.dependencies st st1 newdeps hdeps
          refine ⟨?_, ?_, ?_⟩
          · intro i hi
            rw [List.getElem?_append_left (by omega)]
            exact hprev.1 i hi
          · rw [List.length_append]
            omega
          · intro i nd2 hi hg
            by_cases hlt : i < st1.length
            · rw [List.getElem?_append_left hlt] at hg
              exact hprev.2.2 i nd2 hi hg
            · by_cases heq : i = st1.length
              · subst heq
                rw [List.getElem?_append_right (by omega)] at hg
                simp at hg
                rw [← hg]
              · rw [List.getElem?_eq_none (by simp; omega)] at hg
                cases hg
    constructor
    · exact hnode
    · intro l
      induction l with
      | nil =>
        intro st st' nl h
        simp [copyDepsF] at h
        obtain ⟨h1, _⟩ := h
        subst h1
        exact ⟨fun i _ => rfl, le_rfl, fun i nd hi hg => by
          rw [List.getElem?_eq_none (by omega)] at hg
          cases hg⟩
      | cons p rest ihl =>
        intro st st' nl h
        obtain ⟨nm, ca⟩ := p
        rw [copyDepsF] at h
        split at h
        · cases h
        · rename_i st1 na hn
          split at h
          · cases h
          · rename_i st2 nrest hr
            simp only [Option.some.injEq, Prod.mk.injEq] at h
            obtain ⟨hst', _hnl⟩ := h
            subst hst'
            have h1 := hnode st ca st1 na hn
            have h2 := ihl st1 st2 nrest hr
            refine ⟨?_, ?_, ?_⟩
            · intro i hi
              have := h1.2.1
              rw [h2.1 i (by omega), h1.1 i hi]
            · have := h1.2.1
              have := h2.2.1
              omega
            · intro i nd hi hg
              by_cases hlt : i < st1.length
              · rw [h2.1 i hlt] at hg
                exact h1.2.2 i nd hi hg
              · exact h2.2.2 i nd (by omega) hg

/-! ## Reflexivity of the per-field checks -/

/-- Well-formed node data: version ranges in order (the `VersionList`
invariant of the spec), same for the compiler, and no duplicate variant
keys (a Python dict cannot hold any). -/
def WfNode (s : Spec) : Prop :=
  vlWf s.versions = true ∧
  (∀ c, s.compiler = some c → vlWf c.versions = true) ∧
  (s.variants.map Prod.fst).Nodup

theorem versionsCheck_refl (s : Spec) (h : vlWf s.versions = true) :
    s.versionsCheck s = true := by
  by_cases he : s.versions.isEmpty
  · simp [Spec.versionsCheck, he]
  · simp [Spec.versionsCheck, he, vlSatisfies_refl _ h]

theorem variantsCheck_refl (s : Spec)
    (h : (s.variants.map Prod.fst).Nodup) : s.variantsCheck s = true := by
  by_cases he : s.variants.isEmpty
  · simp [Spec.variantsCheck, he]
  · simp only [Spec.variantsCheck, Bool.or_eq_true]
    right
    simp only [variantMapSatisfies, List.all_eq_true]
    intro kv hkv
    rw [alookup_of_nodupKeys h (by exact hkv)]
    simp

theorem compilerCheck_refl (s : Spec)
    (h : ∀ c, s.compiler = some c → vlWf c.versions = true) :
    s.compilerCheck s = true := by
  cases hc : s.compiler with
  | none => simp [Spec.compilerCheck, hc]
  | some c =>
    simp [Spec.compilerCheck, hc, Compiler.satisfies,
      vlOverlaps_refl _ (h c hc)]

theorem architectureCheck_refl (s : Spec) : s.architectureCheck s = true := by
  cases h : s.architecture <;> simp [Spec.architectureCheck, h]

/-! ## The provider index is self-satisfying -/

theorem alookup_none_iff {α : Type} (k : String) (l : List (String × α)) :
    alookup k l = none ↔ k ∉ l.map Prod.fst := by
  induction l with
  | nil => simp [alookup]
  | cons p rest ih =>
    obtain ⟨k0, v0⟩ := p
    by_cases h : k = k0 <;> simp [alookup, h, ih]

/-- Index invariant: unique virtual names and nonempty provider sets. -/
def GoodIndex (idx : List (String × List Spec)) : Prop :=
  (idx.map Prod.fst).Nodup ∧ ∀ kv ∈ idx, kv.2 ≠ []

theorem astore_keys_nodup {α : Type} {l : List (String × α)}
    (h : (l.map Prod.fst).Nodup) (n : String) (x : α) :
    ((astore n x l).map Prod.fst).Nodup := by
  induction l with
  | nil => simp [astore, h]
  | cons p rest ih =>
    obtain ⟨k0, v0⟩ := p
    simp only [List.map_cons, List.nodup_cons] at h
    by_cases hk : n = k0
    · subst hk
      simpa [astore] using h
    · simp only [astore, if_neg hk, List.map_cons, List.nodup_cons]
      refine ⟨?_, ih h.2⟩
      intro hmem
      rcases List.mem_map.mp hmem with ⟨q, hq, hq1⟩
      rcases mem_astore hq with rfl | hq'
      · exact hk (by simpa using hq1)
      · exact h.1 (List.mem_map.mpr ⟨q, hq', hq1⟩)

theorem goodIndex_astore {idx : List (String × List Spec)}
    (h : GoodIndex idx) (n : String) {x : List Spec} (hx : x ≠ []) :
    GoodIndex (astore n x idx) := by
  refine ⟨astore_keys_nodup h.1 n x, ?_⟩
  intro kv hkv
  rcases mem_astore hkv with rfl | hkv'
  · exact hx
  · exact h.2 kv hkv'

theorem providerIndex_good (reg : Registry) (cs : List Spec) :
    GoodIndex (providerIndex reg cs) := by
  rw [providerIndex]
  have base : GoodIndex ([] : List (String × List Spec)) := by
    constructor
    · simp
    · intro kv hkv; cases hkv
  have main : ∀ (l : List Spec) (idx0 : List (String × List Spec)),
      GoodIndex idx0 →
      GoodIndex (l.foldl
        (fun idx c =>
          match reg.find? (fun p => p.pkgName = c.name) with
          | none => idx
          | some pd =>
            pd.provides.foldl
              (fun idx pr =>
                if c.satisfiesFields pr.whenSpec then
                  let restricted :=
                    pr.provided.withVersions
                      (vlIntersect pr.provided.versions c.versions)
                  match alookup pr.provided.name idx with
                  | some l => astore pr.provided.name (l ++ [restricted]) idx
                  | none => astore pr.provided.name [restricted] idx
                else idx)
              idx) idx0) := by
    intro l
    induction l with
    | nil => intro idx0 h0; simpa using h0
    | cons c rest ih =>
      intro idx0 h0
      simp only [List.foldl_cons]
      apply ih
      cases hf : reg.find? (fun p => p.pkgName = c.name) with
      | none => simpa [hf] using h0
      | some pd =>
        simp only [hf]
        have inner : ∀ (prs : List ProvideDecl)
            (idx : List (String × List Spec)), GoodIndex idx →
            GoodIndex (prs.foldl
              (fun idx pr =>
                if c.satisfiesFields pr.whenSpec then
                  let restricted :=
                    pr.provided.withVersions
                      (vlIntersect pr.provided.versions c.versions)
                  match alookup pr.provided.name idx with
                  | some l => astore pr.provided.name (l ++ [restricted]) idx
                  | none => astore pr.provided.name [restricted] idx
                else idx)
              idx) := by
          intro prs
          induction prs with
          | nil => intro idx hidx; simpa using hidx
          | cons pr prrest ihp =>
            intro idx hidx
            simp only [List.foldl_cons]
            apply ihp
            by_cases hw : c.satisfiesFields pr.whenSpec
            · simp only [if_pos hw]
              cases hl : alookup pr.provided.name idx with
              | none => simp only [hl]; exact goodIndex_astore hidx _ (by simp)
              | some lv => simp only [hl]; exact goodIndex_astore hidx _ (by simp)
            · simpa [if_neg hw] using hidx
        exact inner pd.provides idx0 h0
  exact main cs [] base

theorem indexSatisfies_self (idx : List (String × List Spec))
    (hg : GoodIndex idx) : indexSatisfies idx idx = true := by
  simp only [indexSatisfies, List.all_eq_true]
  intro kv hkv
  rw [alookup_of_nodupKeys hg.1 (by exact hkv)]
  have hne := hg.2 kv hkv
  cases hval : kv.2 with
  | nil => exact absurd hval hne
  | cons p rest =>
    simp only [hval, List.any_cons]
    have hb : Spec.beq p p = true := spec_beq_refl p
    simp [hb]

/-! ## `__getitem__` below the root -/

theorem getItem_sub {s : Spec} {n : String} (hn : n ∈ s.subNames)
    (hroot : s.name ≠ n) :
    ∃ m, s.getItem n = some m ∧ m ∈ s.tailNodes ∧ m.name = n := by
  rw [Spec.getItem]
  rw [allNodes_decomp, ← tailNodes_eq]
  rw [List.find?_cons_of_neg _ (by simp [hroot])]
  rw [subNames_eq] at hn
  obtain ⟨m, hm, hmn⟩ := List.mem_map.mp hn
  have hsome : (s.tailNodes.find? fun x => x.name = n).isSome := by
    rw [List.find?_isSome]
    exact ⟨m, hm, by simp [hmn]⟩
  obtain ⟨m', hm'⟩ := Option.isSome_iff_exists.mp hsome
  refine ⟨m', hm', List.mem_of_find?_eq_some hm', ?_⟩
  have := List.find?_some hm'
  simpa using this

/-! ## Reflexivity of `satisfies` under the stated side conditions -/

theorem satisfies_self_core (reg : Registry) :
    ∀ (n : Nat) (s : Spec), s.size ≤ n →
      (∀ y ∈ s.allNodes, WfNode y) →
      (∀ y ∈ s.allNodes, y.name ∉ y.subNames) →
      (∀ y ∈ s.allNodes, pkgExists reg y.name = true) →
      ∀ f, s.size ≤ f → satisfiesF reg f s s = some true := by
  intro n
  induction n with
  | zero => intro s hs; have := spec_size_pos s; omega
  | succ n ih =>
    intro s hs hwf hname hvirt f hf
    have hpos := spec_size_pos s
    cases f with
    | zero => omega
    | succ f =>
      have hws : WfNode s := hwf s (mem_allNodes_self s)
      rw [satisfiesF]
      rw [if_neg (by simp)]
      rw [if_neg (by simp [versionsCheck_refl s hws.1])]
      rw [if_neg (by simp [variantsCheck_refl s hws.2.2])]
      rw [if_neg (by simp [compilerCheck_refl s hws.2.1])]
      rw [if_neg (by simp [architectureCheck_refl s])]
      rw [satDepsF]
      by_cases hd : (s.dependencies.isEmpty || s.dependencies.isEmpty) = true
      · rw [if_pos hd]
      · rw [if_neg hd]
        have hcommon : ∀ ns : List String, (∀ nm ∈ ns, nm ∈ s.subNames) →
            satCommon reg f s s ns = some true := by
          intro ns
          induction ns with
          | nil => intro _; rw [satCommon]
          | cons nm rest ihn =>
            intro hmem
            have hnm : nm ∈ s.subNames := hmem nm (List.mem_cons_self _ _)
            have hroot : s.name ≠ nm := by
              intro he
              exact (hname s (mem_allNodes_self s)) (he ▸ hnm)
            obtain ⟨m, hgi, hmt, hmn⟩ := getItem_sub hnm hroot
            have hmA : m ∈ s.allNodes := mem_allNodes_of_mem_tailNodes hmt
            have hms : m.size < s.size := size_lt_of_mem_tailNodes hmt
            have hrec : satisfiesF reg f m m = some true := by
              apply ih m (by omega)
              · intro y hy; exact hwf y (allNodes_trans hmA hy)
              · intro y hy; exact hname y (allNodes_trans hmA hy)
              · intro y hy; exact hvirt y (allNodes_trans hmA hy)
              · omega
            rw [satCommon, hgi]
            simp only [hrec]
            exact ihn (fun x hx => hmem x (List.mem_cons_of_mem _ hx))
        have hcm : satCommon reg f s s (s.commonDependencies s) = some true := by
          apply hcommon
          intro nm hnm
          exact List.mem_dedup.mp (List.mem_filter.mp hnm).1
        rw [hcm]
        have hidx : indexSatisfies (providerIndex reg s.allNodes)
            (providerIndex reg s.allNodes) = true :=
          indexSatisfies_self _ (providerIndex_good reg s.allNodes)
        have hvd : s.virtualDependencies reg = [] := by
          rw [Spec.virtualDependencies]
          apply List.filter_eq_nil_iff.mpr
          intro x hx
          simp [Spec.virtual, hvirt x hx]
        simp [hidx, hvd]

/-! # The claims -/

/-! ## C2 — constrain on a name mismatch -/

/-- C2: the claim says that for specs of different names `constrain` raises
`UnsatisfiableSpecNameError`, a distinct typed error with
`constraint_type = "name"`.  The intent is clear (the class docstring says
"Raised when two specs aren't even for the same package" and the spec
instructs to treat it as its own type), but the code's `__init__` invokes
`super(UnsatisfiableVersionSpecError, self)` although the class does not
derive from `UnsatisfiableVersionSpecError`, so constructing the error —
and hence `constrain` on any name mismatch — raises Python `TypeError`
instead.  This theorem evaluates the code at the failing input. -/
theorem spack_c2_name_mismatch_typeerror :
    (∀ p r, mkUnsatisfiableSpecNameError p r =
      .error (.typeError
        "super(type, obj): obj must be an instance or subtype of type")) ∧
    (∀ (s o : Spec) (reg : Registry) (fuel : Nat) (deps : Bool),
      s.name ≠ o.name →
      constrainF reg fuel deps s o =
        some (.error (.typeError
          "super(type, obj): obj must be an instance or subtype of type"))) ∧
    constrainF [] 10 true (Spec.mk "libelf" [anyElem] [] none none [])
        (Spec.mk "libdwarf" [anyElem] [] none none []) =
      some (.error (.typeError
        "super(type, obj): obj must be an instance or subtype of type")) := by
  refine ⟨fun p r => rfl, ?_, rfl⟩
  intro s o reg fuel deps hne
  simp [constrainF, Spec.constrainFields, hne, raiseErr,
    mkUnsatisfiableSpecNameError, superInitUnsat, ErrCls.isSubclassOf,
    ErrCls.parent]

/-- C2 witness: the general statement applied at two concrete specs of
different names. -/
theorem spack_c2_name_mismatch_typeerror_witness :
    constrainF [] 3 false (Spec.mk "a" [] [] none none [])
        (Spec.mk "b" [] [] none none []) =
      some (.error (.typeError
        "super(type, obj): obj must be an instance or subtype of type")) :=
  spack_c2_name_mismatch_typeerror.2.1
    (Spec.mk "a" [] [] none none []) (Spec.mk "b" [] [] none none [])
    [] 3 false (by decide)

/-! ## C3 — `normalized()` never terminates -/

/-- C3: the claim says `normalized()` terminates within the DAG size and
returns a normalized copy without modifying the receiver.  The docstring
agrees ("Return a normalized copy of this spec without modifying this
spec"), but the body is `clone = self.copy(); clone.normalized()` — it
calls *itself* on the clone instead of `normalize()`, so no amount of fuel
produces a result: the Python original recurses until the interpreter's
recursion limit.  The embedding returns `none` for every fuel and every
spec. -/
theorem spack_c3_normalized_never_returns :
    ∀ (fuel : Nat) (s : Spec), normalizedF fuel s = none := by
  intro fuel
  induction fuel with
  | zero => intro s; rfl
  | succ n ih => intro s; rw [normalizedF]; exact ih _

/-! ## C6 — constrain on disjoint version lists -/

/-- C6 (amended): constraining two specs of the same name whose version
lists do not overlap raises `UnsatisfiableVersionSpecError` carrying the
provided and required *version lists* (`self.versions`, `other.versions`)
— not the full spec strings the claim's concrete scenario names. -/
theorem spack_c6_version_conflict (s o : Spec) (hname : s.name = o.name)
    (hdisj : vlOverlaps s.versions o.versions = false)
    (reg : Registry) (fuel : Nat) (deps : Bool) :
    constrainF reg fuel deps s o =
      some (.error (.spec (.unsat "version"
        (.vlist s.versions) (.vlist o.versions)))) := by
  simp [constrainF, Spec.constrainFields, hname, hdisj, raiseErr,
    mkUnsatisfiableVersionSpecError, superInitUnsat, ErrCls.isSubclassOf,
    ErrCls.parent]

/-- The parse of `"mpi@:1.1"`. -/
def mpiLo : Spec := .mk "mpi" [.range none (some [.num 1, .num 1])] [] none none []

/-- The parse of `"mpi@2.1:"`. -/
def mpiHi : Spec := .mk "mpi" [.range (some [.num 2, .num 1]) none] [] none none []

/-- C6 witness: the amended statement at the claim's concrete input, with
the parses, the payloads and their string forms evaluated. -/
theorem spack_c6_version_conflict_witness :
    specParseStr "mpi@:1.1" = .ok [mpiLo] ∧
    specParseStr "mpi@2.1:" = .ok [mpiHi] ∧
    mpiLo.name = mpiHi.name ∧
    vlOverlaps mpiLo.versions mpiHi.versions = false ∧
    constrainF [] 10 true mpiLo mpiHi =
      some (.error (.spec (.unsat "version"
        (.vlist mpiLo.versions) (.vlist mpiHi.versions)))) ∧
    vlStr mpiLo.versions = ":1.1" ∧ vlStr mpiHi.versions = "2.1:" := by
  refine ⟨?_, ?_, rfl, rfl,
    spack_c6_version_conflict mpiLo mpiHi rfl rfl [] 10 true, rfl, rfl⟩
  · simp [specParseStr, lexChars, isWordChar, isIdChar, doParse, parseSpec,
      parseSpecLoop, parseVersionList, parseVersion, parseCompiler,
      parseVariant, parseArch, checkIdentifier, versionOf, splitDots,
      digitsToNat, vlAdd, Spec.newNode, Spec.withVersions, Spec.addVersion,
      Spec.versions, Except.map, Except.bind, Except.pure, bind, pure, mpiLo]
  · simp [specParseStr, lexChars, isWordChar, isIdChar, doParse, parseSpec,
      parseSpecLoop, parseVersionList, parseVersion, parseCompiler,
      parseVariant, parseArch, checkIdentifier, versionOf, splitDots,
      digitsToNat, vlAdd, Spec.newNode, Spec.withVersions, Spec.addVersion,
      Spec.versions, Except.map, Except.bind, Except.pure, bind, pure, mpiHi]

/-- C6 counterexample: the claim as stated asserts the error carries
provided `"mpi@:1.1"` and required `"mpi@2.1:"`; the error actually
carries the version lists, whose string forms are `":1.1"` and `"2.1:"`,
not the spec strings. -/
theorem spack_c6_counterexample :
    constrainF [] 10 true mpiLo mpiHi =
      some (.error (.spec (.unsat "version"
        (.vlist [.range none (some [.num 1, .num 1])])
        (.vlist [.range (some [.num 2, .num 1]) none])))) ∧
    vlStr [VElem.range none (some [.num 1, .num 1])] = ":1.1" ∧
    vlStr [VElem.range (some [.num 2, .num 1]) none] = "2.1:" ∧
    (":1.1" : String) ≠ "mpi@:1.1" ∧ ("2.1:" : String) ≠ "mpi@2.1:" := by
  exact ⟨rfl, rfl, rfl, by decide, by decide⟩

/-! ## C7 — `@` after `%compiler` binds to the compiler, later `@` to the package -/

/-- C7: parsing `"mpileaks%intel@12.1@1.5"` yields one spec whose compiler
is `intel` with version list `{12.1}` and whose own version list is
`{1.5}`: the version list right after the compiler name binds to the
compiler and the subsequent `@` binds to the package. -/
theorem spack_c7_compiler_at_disambiguation :
    specParseStr "mpileaks%intel@12.1@1.5" =
      .ok [Spec.mk "mpileaks" [.ver [.num 1, .num 5]] []
            (some ⟨"intel", [.ver [.num 12, .num 1]]⟩) none []] := by
  simp [specParseStr, lexChars, isWordChar, isIdChar, doParse, parseSpec,
    parseSpecLoop, parseVersionList, parseVersion, parseCompiler,
    parseVariant, parseArch, checkIdentifier, versionOf, splitDots,
    digitsToNat, vlAdd, Spec.newNode, Spec.withVersions, Spec.addVersion,
    Spec.setCompiler, Spec.withCompiler, Spec.compiler, Spec.name,
    Spec.versions, Except.map, Except.bind, Except.pure, bind, pure]

/-! ## C8 — duplicate clauses raise the matching typed errors -/

/-- C8: while building a single spec the parser raises the matching typed
error on every duplicate clause: a second `%` raises
`DuplicateCompilerError`, a second `=` raises
`DuplicateArchitectureError`, a repeated variant name raises
`DuplicateVariantError`, and a second `^` dependency with a present name
raises `DuplicateDependencyError` — stated for the builder methods the
parser calls (`_set_compiler`, `_set_architecture`, `_add_variant`,
`_add_dependency`) and evaluated on four concrete inputs. -/
theorem spack_c8_duplicate_errors :
    (∀ (s : Spec) (c : Compiler), s.compiler.isSome = true →
      s.setCompiler c = .error (.spec (.dupCompiler
        ("Spec for '" ++ s.name ++ "' cannot have two compilers.")))) ∧
    (∀ (s : Spec) (a : String), s.architecture.isSome = true →
      s.setArchitecture a = .error (.spec (.dupArchitecture
        ("Spec for '" ++ s.name ++ "' cannot have two architectures.")))) ∧
    (∀ (s : Spec) (n : String) (e : Bool), akey n s.variants = true →
      s.addVariant n e = .error (.spec (.dupVariant
        ("Cannot specify variant '" ++ n ++ "' twice")))) ∧
    (∀ (s d : Spec), akey d.name s.dependencies = true →
      s.addDependency d = .error (.spec (.dupDependency
        ("Cannot depend on '" ++ d.str ++ "' twice")))) ∧
    specParseStr "x%gcc%intel" =
      .error (.spec (.dupCompiler "Spec for 'x' cannot have two compilers.")) ∧
    specParseStr "x=a=b" =
      .error (.spec (.dupArchitecture "Spec for 'x' cannot have two architectures.")) ∧
    specParseStr "x+debug+debug" =
      .error (.spec (.dupVariant "Cannot specify variant 'debug' twice")) ∧
    specParseStr "x^d^d" =
      .error (.spec (.dupDependency "Cannot depend on 'd' twice")) := by
  refine ⟨?_, ?_, ?_, ?_, ?_, ?_, ?_, ?_⟩
  · intro s c h; simp [Spec.setCompiler, h]
  · intro s a h; simp [Spec.setArchitecture, h]
  · intro s n e h; simp [Spec.addVariant, h]
  · intro s d h; simp [Spec.addDependency, h]
  · simp [specParseStr, lexChars, isWordChar, isIdChar, doParse, parseSpec,
      parseSpecLoop, parseVersionList, parseVersion, parseCompiler,
      parseVariant, parseArch, checkIdentifier, versionOf, splitDots,
      digitsToNat, vlAdd, Spec.newNode, Spec.withVersions, Spec.addVersion,
      Spec.setCompiler, Spec.withCompiler, Spec.compiler, Spec.name,
      Except.map, Except.bind, Except.pure, bind, pure]
  · simp [specParseStr, lexChars, isWordChar, isIdChar, doParse, parseSpec,
      parseSpecLoop, parseVersionList, parseVersion, parseCompiler,
      parseVariant, parseArch, checkIdentifier, versionOf, splitDots,
      digitsToNat, vlAdd, Spec.newNode, Spec.withVersions, Spec.addVersion,
      Spec.setArchitecture, Spec.withArchitecture, Spec.architecture,
      Spec.name, Except.map, Except.bind, Except.pure, bind, pure]
  · simp [specParseStr, lexChars, isWordChar, isIdChar, doParse, parseSpec,
      parseSpecLoop, parseVersionList, parseVersion, parseCompiler,
      parseVariant, parseArch, checkIdentifier, versionOf, splitDots,
      digitsToNat, vlAdd, Spec.newNode, Spec.withVersions, Spec.addVersion,
      Spec.addVariant, Spec.withVariants, Spec.variants, Spec.name,
      akey, alookup, astore, Except.map, Except.bind, Except.pure, bind, pure]
  · simp [specParseStr, lexChars, isWordChar, isIdChar, doParse, parseSpec,
      parseSpecLoop, parseVersionList, parseVersion, parseCompiler,
      parseVariant, parseArch, checkIdentifier, versionOf, splitDots,
      digitsToNat, vlAdd, Spec.newNode, Spec.withVersions, Spec.addVersion,
      Spec.addDependency, Spec.withDependencies, Spec.dependencies,
      Spec.name, akey, alookup, astore, Spec.str, Spec.preorder, Spec.trav,
      Spec.travList, Spec.sortedDeps, Spec.fmtD, Spec.fmt, defaultFormat,
      formatGo, vlStr, velemStr, compVersionStr, variantMapStr,
      anyVersionList, Variant.str, Spec.versions, Spec.variants,
      Spec.compiler, Spec.architecture, Except.map, Except.bind,
      Except.pure, bind, pure]
    rfl

/-- C8 witness: each builder statement applied at a concrete spec that
already carries the field. -/
theorem spack_c8_duplicate_errors_witness :
    (Spec.mk "x" [] [] (some ⟨"gcc", []⟩) none []).setCompiler ⟨"intel", []⟩ =
      .error (.spec (.dupCompiler "Spec for 'x' cannot have two compilers.")) ∧
    (Spec.mk "x" [] [] none (some "bgq") []).setArchitecture "sgi" =
      .error (.spec (.dupArchitecture "Spec for 'x' cannot have two architectures.")) ∧
    (Spec.mk "x" [] [("debug", ⟨"debug", true⟩)] none none []).addVariant "debug" false =
      .error (.spec (.dupVariant "Cannot specify variant 'debug' twice")) ∧
    (Spec.mk "x" [] [] none none
        [("d", Spec.mk "d" [anyElem] [] none none [])]).addDependency
        (Spec.mk "d" [anyElem] [] none none []) =
      .error (.spec (.dupDependency
        ("Cannot depend on '" ++ (Spec.mk "d" [anyElem] [] none none []).str ++ "' twice"))) := by
  refine ⟨?_, ?_, ?_, ?_⟩
  · exact spack_c8_duplicate_errors.1 _ _ rfl
  · exact spack_c8_duplicate_errors.2.1 _ _ rfl
  · exact spack_c8_duplicate_errors.2.2.1 _ "debug" false (by simp [Spec.variants, akey, alookup])
  · exact spack_c8_duplicate_errors.2.2.2.1 _ _ (by simp [Spec.dependencies, Spec.name, akey, alookup])

/-! ## C10 — the constructor demands exactly one spec -/

/-- C10: `Spec.__init__` on a string raises `ValueError` whenever the
string parses to more than one spec or to no spec at all, and constructs a
spec (adopting the parsed attributes) exactly when the string contains one
spec. -/
theorem spack_c10_constructor_single (s : String) (l : List Spec)
    (h : specParseStr s = .ok l) :
    (l.length = 1 → ∃ sp, l = [sp] ∧ Spec.ofString s = .ok sp) ∧
    (l.length ≠ 1 → ∃ m, Spec.ofString s = .error (.valueError m)) := by
  constructor
  · intro h1
    cases l with
    | nil => simp at h1
    | cons a t =>
      cases t with
      | nil => exact ⟨a, rfl, by simp [Spec.ofString, h]⟩
      | cons b t2 => simp at h1
  · intro h1
    cases l with
    | nil =>
      exact ⟨"String contains no specs: " ++ s, by simp [Spec.ofString, h]⟩
    | cons a t =>
      cases t with
      | nil => simp at h1
      | cons b t2 =>
        refine ⟨"More than one spec in string: " ++ s, ?_⟩
        simp only [Spec.ofString, h]
        rw [if_pos (by simp)]

/-- The parse of `"a"` within `"a b"`. -/
def specLitA : Spec := .mk "a" [anyElem] [] none none []

/-- The parse of `"b"` within `"a b"`. -/
def specLitB : Spec := .mk "b" [anyElem] [] none none []

/-- Evaluation of the two-spec parse `"a b"`. -/
theorem parse_a_b_eval : specParseStr "a b" = .ok [specLitA, specLitB] := by
  simp [specParseStr, lexChars, isWordChar, isIdChar, doParse, parseSpec,
    parseSpecLoop, parseVersionList, parseVersion, parseCompiler,
    parseVariant, parseArch, checkIdentifier, versionOf, splitDots,
    digitsToNat, vlAdd, Spec.newNode, Spec.withVersions, Spec.addVersion,
    specLitA, specLitB, Except.map, Except.bind, Except.pure, bind, pure]

/-- C10 witness: `"a b"` parses to two specs, so the constructor raises
`ValueError`. -/
theorem spack_c10_constructor_single_witness :
    specParseStr "a b" = .ok [specLitA, specLitB] ∧
    ∃ m, Spec.ofString "a b" = .error (.valueError m) :=
  ⟨parse_a_b_eval,
    (spack_c10_constructor_single "a b" [specLitA, specLitB]
      parse_a_b_eval).2 (by decide)⟩

/-! ## C9 — `cover='nodes'` yields each node once, in sorted-child order -/

/-- C9: on an acyclic spec DAG, `preorder_traversal` with `cover='nodes'`
under an identity key (a key that distinguishes the reachable nodes)
yields one pair per key, namely the first-visit dedup of the naive sorted
preorder (children in ascending dependency-name order, so the sequence is
deterministic); the yielded keys are pairwise distinct and every reachable
node's key occurs. -/
theorem spack_c9_preorder_nodes_once {K : Type} [DecidableEq K]
    (k : Spec → K) (s : Spec) (hinj : KeyInj k s.allNodes) :
    Spec.preorder Cover.nodes k true s = dedupD k [] (Spec.allNodesD 0 s) ∧
    ((Spec.preorder Cover.nodes k true s).map (fun p => k p.2)).Nodup ∧
    ∀ x ∈ s.allNodes,
      k x ∈ (Spec.preorder Cover.nodes k true s).map (fun p => k p.2) := by
  have h := preorder_nodes_dedup k s hinj
  refine ⟨h, ?_, ?_⟩
  · rw [h]
    exact (nodup_keys_dedupD k _ []).1
  · intro x hx
    rw [h]
    apply (mem_keys_dedupD k (k x) _ []).mpr
    refine ⟨?_, by simp⟩
    have hx2 : x ∈ (Spec.allNodesD 0 s).map Prod.snd := by
      rw [allNodesD_snd]; exact hx
    obtain ⟨p, hp, hps⟩ := List.mem_map.mp hx2
    exact ⟨p, hp, by rw [hps]⟩

/-- The three-node spec `x ^a ^b` used to witness C9 and C1. -/
def wSpec : Spec :=
  .mk "x" [anyElem] [] none none
    [("b", .mk "b" [anyElem] [] none none []),
     ("a", .mk "a" [anyElem] [] (some ⟨"gcc", [.ver [.num 4, .num 5]]⟩) none [])]

/-- Node list of the witness spec, children in sorted name order. -/
theorem wSpec_allNodes :
    wSpec.allNodes =
      [wSpec, .mk "a" [anyElem] [] (some ⟨"gcc", [.ver [.num 4, .num 5]]⟩) none [],
       .mk "b" [anyElem] [] none none []] := by
  simp +decide [wSpec, Spec.allNodes, Spec.allNodesD, Spec.allNodesListD,
    Spec.sortedDeps, Spec.dependencies]

/-- The name key identifies the witness spec's nodes. -/
theorem wSpec_name_inj : KeyInj Spec.name wSpec.allNodes := by
  intro u hu w hw he
  rw [wSpec_allNodes] at hu hw
  simp only [List.mem_cons, List.mem_singleton, List.not_mem_nil] at hu hw
  rcases hu with rfl | rfl | rfl | hu <;>
    rcases hw with rfl | rfl | rfl | hw <;>
      simp_all [wSpec, Spec.name]

/-- C9 witness: the theorem at the witness spec with the name key; the
yielded node names are pairwise distinct, and the concrete traversal is
the sorted preorder `x, a, b`. -/
theorem spack_c9_preorder_nodes_once_witness :
    ((Spec.preorder Cover.nodes Spec.name true wSpec).map
      (fun p => p.2.name)).Nodup ∧
    (Spec.preorder Cover.nodes Spec.name true wSpec).map (fun p => p.2.name) =
      ["x", "a", "b"] := by
  constructor
  · exact (spack_c9_preorder_nodes_once Spec.name wSpec wSpec_name_inj).2.1
  · simp +decide [wSpec, Spec.preorder, Spec.trav, Spec.travList,
      Spec.sortedDeps, Spec.dependencies, Spec.name]

/-! ## C1 — the canonical string -/

/-- C1 (amended): for every spec whose name key identifies its nodes,
`str(s)` equals `format('$_$@$%@$+$=')` of the root — the *default* format
string, which does include the compiler — followed, in sorted
dependency-name order, by `^` plus the same format of each transitive
dependency (the first node per name in sorted preorder, the root's name
excluded), as a flat list.  The claim's `format('$_$@$+$=')` is wrong: the
compiler segment is part of the canonical form (see the
counterexample). -/
theorem spack_c1_canonical_str (s : Spec)
    (hinj : KeyInj Spec.name s.allNodes) :
    s.fmt defaultFormat = .ok s.fmtD ∧
    Spec.str s = s.fmtD ++ String.join
      ((((dedupD Spec.name [s.name]
            (Spec.allNodesListD 1 s.sortedDeps)).map Prod.snd).insertionSort
          (fun a b => a.name ≤ b.name)).map fun d => "^" ++ d.fmtD) := by
  refine ⟨fmt_default_ok s, ?_⟩
  simp only [Spec.str]
  rw [preorder_nodes_dedup_noroot Spec.name s hinj]

/-- C1 witness: the amended statement at the witness spec, whose canonical
string is concretely `x^a%gcc@4.5^b` — dependencies flat and sorted, the
compiler included. -/
theorem spack_c1_canonical_str_witness :
    Spec.str wSpec = wSpec.fmtD ++ String.join
      ((((dedupD Spec.name [wSpec.name]
            (Spec.allNodesListD 1 wSpec.sortedDeps)).map Prod.snd).insertionSort
          (fun a b => a.name ≤ b.name)).map fun d => "^" ++ d.fmtD) ∧
    Spec.str wSpec = "x^a%gcc@4.5^b" := by
  constructor
  · exact (spack_c1_canonical_str wSpec wSpec_name_inj).2
  · simp +decide [wSpec, Spec.str, Spec.preorder, Spec.trav, Spec.travList,
      Spec.sortedDeps, Spec.dependencies, Spec.name, Spec.fmtD, Spec.fmt,
      defaultFormat, formatGo, vlStr, velemStr, compVersionStr,
      variantMapStr, anyVersionList, Variant.str, Spec.versions,
      Spec.variants, Spec.compiler, Spec.architecture]

/-- The spec `foo%intel@12.1`, on which the claimed canonical format and
the actual one differ. -/
def c1cex : Spec :=
  .mk "foo" [anyElem] [] (some ⟨"intel", [.ver [.num 12, .num 1]]⟩) none []

/-- C1 counterexample: the claim says `str(s)` is `format('$_$@$+$=')` of
the root (no compiler) plus the dependency segments; on `foo%intel@12.1`
that format yields `"foo"` while `str` yields `"foo%intel@12.1"` — the
default format is `'$_$@$%@$+$='` and the compiler is part of the
canonical string. -/
theorem spack_c1_counterexample :
    Spec.str c1cex = "foo%intel@12.1" ∧
    c1cex.fmt "$_$@$+$=" = .ok "foo" ∧
    ("foo%intel@12.1" : String) ≠ "foo" := by
  refine ⟨?_, ?_, by decide⟩
  · simp [c1cex, Spec.str, Spec.preorder, Spec.trav, Spec.travList,
      Spec.sortedDeps, Spec.fmtD, Spec.fmt, defaultFormat, formatGo, vlStr,
      velemStr, compVersionStr, variantMapStr, anyVersionList, Variant.str,
      Spec.name, Spec.versions, Spec.compiler, Spec.architecture,
      Spec.variants, Spec.dependencies, anyElem]
    rfl
  · simp [c1cex, Spec.fmt, formatGo, Spec.name, Spec.versions,
      Spec.compiler, Spec.architecture, Spec.variants, anyVersionList,
      anyElem]

/-! ## C4 — what `copy()` does to back-references -/

/-- C4 (amended): `_dup` resets the clone's `dependents` to an empty map
and copies dependencies by value, so *every* node the copy allocates has
an empty `dependents` map: no back-reference in the clone points anywhere
— in particular never to a node of the original — but the claimed edge
invariant `B.dependents[A.name] is A` does not hold inside the clone; the
original's nodes are left untouched. -/
theorem spack_c4_copy_empties_dependents (fuel : Nat) (st : Store)
    (a : Nat) (st' : Store) (r : Nat)
    (h : copyNodeF fuel st a = some (st', r)) :
    (∀ i, i < st.length → st'[i]? = st[i]?) ∧
    st.length ≤ st'.length ∧
    (∀ i nd, st.length ≤ i → st'[i]? = some nd → nd.dependents = []) :=
  (copyNode_fresh fuel).1 st a st' r h

/-- A two-node store: node 0 is `a` with edge to node 1 (`b`), and `b`
holds the back-reference `dependents["a"] = 0`. -/
def c4store : Store :=
  [⟨"a", [anyElem], [], none, none, [("b", 1)], []⟩,
   ⟨"b", [anyElem], [], none, none, [], [("a", 0)]⟩]

/-- The clone of `b` produced by copying node 0 of `c4store`. -/
def c4bClone : SNode := ⟨"b", [anyElem], [], none, none, [], []⟩

/-- The clone of `a` produced by copying node 0 of `c4store`: its `b` edge
points at the fresh address 2. -/
def c4aClone : SNode := ⟨"a", [anyElem], [], none, none, [("b", 2)], []⟩

/-- Evaluation of the copy on the two-node store: the clone root is at
address 3, its dependency at address 2. -/
theorem c4_copy_eval :
    copyNodeF 3 c4store 0 = some (c4store ++ [c4bClone, c4aClone], 3) := by
  simp [copyNodeF, copyDepsF, c4store, c4bClone, c4aClone, Compiler.copy]

/-- C4 counterexample: in the clone of `a → b`, the edge
`cloneA → cloneB` exists (`cloneA.dependencies["b"] = 2`) but
`cloneB.dependents` is empty, so `B.dependents[A.name] is A` fails —
`dependents["a"]` is not the clone root's address 3 (it is absent
entirely). -/
theorem spack_c4_counterexample :
    copyNodeF 3 c4store 0 = some (c4store ++ [c4bClone, c4aClone], 3) ∧
    alookup "b" c4aClone.dependencies = some 2 ∧
    c4bClone.dependents = [] ∧
    ¬ alookup "a" c4bClone.dependents = some 3 := by
  exact ⟨c4_copy_eval, rfl, rfl, by decide⟩

/-- C4 witness: the amended statement at the concrete store — every node
the copy allocated (addresses 2 and 3) has empty dependents, and the two
original nodes are unchanged. -/
theorem spack_c4_copy_empties_dependents_witness :
    (∀ i nd, c4store.length ≤ i →
      (c4store ++ [c4bClone, c4aClone])[i]? = some nd →
        nd.dependents = []) ∧
    (∀ i, i < c4store.length →
      (c4store ++ [c4bClone, c4aClone])[i]? = c4store[i]?) :=
  ⟨(spack_c4_copy_empties_dependents 3 c4store 0 _ 3 c4_copy_eval).2.2,
   (spack_c4_copy_empties_dependents 3 c4store 0 _ 3 c4_copy_eval).1⟩

/-! ## C5 — reflexivity of `satisfies` -/

/-- C5 (amended): `s.satisfies(s)` terminates and returns true for every
spec whose nodes are well-formed (ordered version ranges, unique variant
keys), in which no node's own name recurs among its transitive dependency
names, and whose node names are all registered packages (no virtual
nodes).  Unrestricted reflexivity is false — see the counterexample: a
spec with a virtual dependency that excludes an in-spec provider
self-reports false, and a spec with a dependency named like its root never
terminates. -/
theorem spack_c5_satisfies_refl (reg : Registry) (s : Spec)
    (hwf : ∀ y ∈ s.allNodes, WfNode y)
    (hname : ∀ y ∈ s.allNodes, y.name ∉ y.subNames)
    (hreg : ∀ y ∈ s.allNodes, pkgExists reg y.name = true)
    (f : Nat) (hf : s.size ≤ f) :
    satisfiesF reg f s s = some true :=
  satisfies_self_core reg s.size s le_rfl hwf hname hreg f hf

/-- The dependency node of the C5 witness. -/
def c5b : Spec := .mk "b" [anyElem] [] none none []

/-- The C5 witness spec `a ^b`. -/
def c5ex : Spec := .mk "a" [anyElem] [] none none [("b", c5b)]

/-- Registry for the C5 witness: both names exist, nothing is provided. -/
def c5reg : Registry := [⟨"a", []⟩, ⟨"b", []⟩]

/-- Node list of the C5 witness spec. -/
theorem c5ex_allNodes : c5ex.allNodes = [c5ex, c5b] := by
  simp [c5ex, c5b, Spec.allNodes, Spec.allNodesD, Spec.allNodesListD,
    Spec.sortedDeps, Spec.dependencies]

/-- C5 witness: the amended statement at `a ^b` with both names
registered. -/
theorem spack_c5_satisfies_refl_witness :
    satisfiesF c5reg 2 c5ex c5ex = some true := by
  apply spack_c5_satisfies_refl c5reg c5ex
  · intro y hy
    rw [c5ex_allNodes] at hy
    rcases List.mem_cons.mp hy with rfl | hy2
    · refine ⟨by decide, ?_, by decide⟩
      intro c hc
      simp [c5ex, Spec.compiler] at hc
    · rcases List.mem_cons.mp hy2 with rfl | hy3
      · refine ⟨by decide, ?_, by decide⟩
        intro c hc
        simp [c5b, Spec.compiler] at hc
      · cases hy3
  · intro y hy
    rw [c5ex_allNodes] at hy
    rcases List.mem_cons.mp hy with rfl | hy2
    · simp [c5ex, c5b, Spec.name, Spec.subNames, Spec.sortedDeps,
        Spec.dependencies, Spec.allNodesListD, Spec.allNodesD]
    · rcases List.mem_cons.mp hy2 with rfl | hy3
      · simp [c5b, Spec.name, Spec.subNames, Spec.sortedDeps,
          Spec.dependencies, Spec.allNodesListD, Spec.allNodesD]
      · cases hy3
  · intro y hy
    rw [c5ex_allNodes] at hy
    rcases List.mem_cons.mp hy with rfl | hy2
    · simp [c5ex, Spec.name, pkgExists, c5reg]
    · rcases List.mem_cons.mp hy2 with rfl | hy3
      · simp [c5b, Spec.name, pkgExists, c5reg]
      · cases hy3
  · simp [c5ex, c5b, Spec.size, Spec.sizeDeps]

/-- The spec `a ^a`: a root with a dependency of the same name. -/
def selfNamed : Spec :=
  .mk "a" [anyElem] [] none none [("a", .mk "a" [anyElem] [] none none [])]

/-- On `a ^a`, `satisfies(self)` never produces a result: `self["a"]`
resolves to the root itself (the first preorder node of that name), so
the dependency check of `satisfies` recurses on the very same pair — the
Python original exhausts the recursion limit. -/
theorem selfNamed_satisfies_none :
    ∀ f, satisfiesF [] f selfNamed selfNamed = none := by
  intro f
  induction f with
  | zero => rw [satisfiesF]
  | succ f ih =>
    rw [satisfiesF]
    rw [if_neg (by simp)]
    rw [if_neg (by simp [selfNamed, Spec.versionsCheck, Spec.versions,
      vlSatisfies, vlOverlaps, VElem.coveredBy, VElem.overlap, anyElem,
      VElem.lo, VElem.hi])]
    rw [if_neg (by simp [selfNamed, Spec.variantsCheck, Spec.variants])]
    rw [if_neg (by simp [selfNamed, Spec.compilerCheck, Spec.compiler])]
    rw [if_neg (by simp [selfNamed, Spec.architectureCheck,
      Spec.architecture])]
    rw [satDepsF]
    rw [if_neg (by simp [selfNamed, Spec.dependencies])]
    have hc : Spec.commonDependencies selfNamed selfNamed = ["a"] := by
      simp [Spec.commonDependencies, Spec.subNames, selfNamed,
        Spec.sortedDeps, Spec.dependencies, Spec.allNodesListD,
        Spec.allNodesD, Spec.name]
    rw [hc]
    have hgi : Spec.getItem selfNamed "a" = some selfNamed := by
      simp [Spec.getItem, Spec.allNodes, Spec.allNodesD, Spec.allNodesListD,
        selfNamed, Spec.sortedDeps, Spec.dependencies, Spec.name]
    rw [satCommon, hgi]
    simp only [ih]

/-- The registry for the virtual-provider half of the C5 counterexample:
`mpich2` exists and provides `mpi@:2.2` when `@1.2:`; `mpi` and `foo` are
not packages. -/
def regV : Registry :=
  [⟨"foo", []⟩,
   ⟨"mpich2",
    [⟨Spec.mk "mpi" [.range none (some [.num 2, .num 2])] [] none none [],
      Spec.mk "mpich2" [.range (some [.num 1, .num 2]) none] [] none none []⟩]⟩]

/-- The spec `foo ^mpi@3: ^mpich2@1.5`: its virtual `mpi` constraint
excludes the only in-spec provider (the source's own comment gives
exactly this example: "mpi@3: is not compatible with mpich2"). -/
def fooSpec : Spec :=
  .mk "foo" [anyElem] [] none none
    [("mpi", .mk "mpi" [.range (some [.num 3]) none] [] none none []),
     ("mpich2", .mk "mpich2" [.ver [.num 1, .num 5]] [] none none [])]

/-- C5 counterexample: reflexivity fails on the code.  The spec
`foo ^mpi@3: ^mpich2@1.5` satisfies *itself* to `false` (the
virtual-provider cross-check of `satisfies_dependencies` rejects it), and
on `a ^a` `satisfies(self)` never returns at all. -/
theorem spack_c5_counterexample :
    satisfiesF regV 5 fooSpec fooSpec = some false ∧
    ¬ ∃ f, satisfiesF [] f selfNamed selfNamed = some true := by
  constructor
  · simp +decide [satisfiesF, satDepsF, satCommon, regV, fooSpec,
      Spec.versionsCheck, Spec.variantsCheck, Spec.compilerCheck,
      Spec.architectureCheck, Spec.versions, Spec.variants, Spec.compiler,
      Spec.architecture, Spec.dependencies, Spec.name, vlSatisfies,
      vlOverlaps, VElem.coveredBy, VElem.overlap, VElem.lo, VElem.hi,
      anyElem, Version.le, VComp.le, loLe, leHi, Spec.commonDependencies,
      Spec.subNames, Spec.sortedDeps, Spec.allNodesListD, Spec.allNodesD,
      Spec.getItem, Spec.allNodes, Spec.virtualDependencies, Spec.virtual,
      pkgExists, providerIndex, providersFor, indexSatisfies, akey, alookup,
      astore, Spec.satisfiesFields, variantMapSatisfies, Compiler.satisfies,
      vlIntersect, VElem.inter, Spec.withVersions, Spec.beq, Spec.beqDeps]
  · rintro ⟨f, hf⟩
    rw [selfNamed_satisfies_none f] at hf
    cases hf

end Spack
